import Mathlib

/-!
Verification development for the `simple-todo` Tauri backend
(`src/src-tauri/src/main.rs`).

The backend is synchronous CRUD over JSON files and directories.  We give a
shallow embedding: the filesystem is a finite tree of named nodes, paths are
lists of components (the empty path models the empty string), and each
`std::fs` primitive used by the program is modelled by a pure function on the
tree with the same success/failure conditions.  Each Tauri command is then a
direct translation of the Rust source.

Modelling notes:
 - `fs::copy` overwrites an existing destination file, fails when the source
   is missing or a directory, and fails when the destination is an existing
   directory or its parent directory is missing.
 - `fs::create_dir_all` succeeds on an existing directory, creates missing
   parents, and fails when a component exists as a file.
 - `fs::write` requires the parent directory to exist and fails when the
   target is an existing directory.
 - `fs::read_dir` snapshots the list of entries; `copy_dir_all` carries a
   fuel parameter because the real recursion does not terminate when the
   destination lies inside the source (the model returns an error where the
   real program diverges; all theorems quantify over the fuel).
 - JSON (de)serialisation is opaque to this layer and is modelled by an
   arbitrary parse/serialise function passed as a parameter.
-/

namespace SimpleTodo

/-- A filesystem node: a regular file with string content, or a directory
with a list of named children (in directory order). -/
inductive Node where
  | file (content : String)
  | dir (children : List (String × Node))

/-- A filesystem path, as its list of components.  `[]` models the empty
path string. -/
abbrev FsPath := List String

/-- First association of a name in a children list. -/
def assoc : List (String × Node) → String → Option Node
  | [], _ => none
  | c :: rest, k => if c.1 = k then some c.2 else assoc rest k

/-- Replace the child named `k` (in place), or append it if absent. -/
def setChild : List (String × Node) → String → Node → List (String × Node)
  | [], k, v => [(k, v)]
  | c :: rest, k, v => if c.1 = k then (k, v) :: rest else c :: setChild rest k v

/-- Remove every child named `k`. -/
def eraseChild : List (String × Node) → String → List (String × Node)
  | [], _ => []
  | c :: rest, k => if c.1 = k then eraseChild rest k else c :: eraseChild rest k

/-- Resolve a path inside a node. -/
def lookup : Node → FsPath → Option Node
  | n, [] => some n
  | Node.file _, _ :: _ => none
  | Node.dir cs, k :: rest =>
    match assoc cs k with
    | none => none
    | some child => lookup child rest

/-- Model of `Path::exists`. -/
def pathExists (fs : Node) (p : FsPath) : Bool :=
  (lookup fs p).isSome

/-- Model of `Path::is_dir` (false when the path does not exist). -/
def isDir (fs : Node) (p : FsPath) : Bool :=
  match lookup fs p with
  | some (Node.dir _) => true
  | _ => false

/-- Model of `fs::write`: the parent directory must exist, the target may
not be an existing directory; an existing file is overwritten. -/
def writeFile : Node → FsPath → String → Option Node
  | _, [], _ => none
  | Node.file _, _ :: _, _ => none
  | Node.dir cs, [k], c =>
    match assoc cs k with
    | some (Node.dir _) => none
    | _ => some (Node.dir (setChild cs k (Node.file c)))
  | Node.dir cs, k :: k2 :: rest, c =>
    match assoc cs k with
    | none => none
    | some child =>
      match writeFile child (k2 :: rest) c with
      | none => none
      | some child2 => some (Node.dir (setChild cs k child2))

/-- Model of `fs::create_dir_all`: creates missing directories along the
path, succeeds if the directory already exists, fails when a component
exists as a file. -/
def createDirAll : Node → FsPath → Option Node
  | Node.file _, [] => none
  | Node.dir cs, [] => some (Node.dir cs)
  | Node.file _, _ :: _ => none
  | Node.dir cs, k :: rest =>
    match assoc cs k with
    | some child =>
      match createDirAll child rest with
      | none => none
      | some child2 => some (Node.dir (setChild cs k child2))
    | none =>
      match createDirAll (Node.dir []) rest with
      | none => none
      | some child2 => some (Node.dir (setChild cs k child2))

/-- Remove the entry at a (nonempty, existing) path. -/
def removeAt : Node → FsPath → Option Node
  | _, [] => none
  | Node.file _, _ :: _ => none
  | Node.dir cs, [k] =>
    match assoc cs k with
    | none => none
    | some _ => some (Node.dir (eraseChild cs k))
  | Node.dir cs, k :: k2 :: rest =>
    match assoc cs k with
    | none => none
    | some child =>
      match removeAt child (k2 :: rest) with
      | none => none
      | some child2 => some (Node.dir (setChild cs k child2))

/-- Model of `fs::remove_file`: the path must be an existing regular file. -/
def removeFile (fs : Node) (p : FsPath) : Option Node :=
  match lookup fs p with
  | some (Node.file _) => removeAt fs p
  | _ => none

/-- Model of `fs::remove_dir_all`: the path must be an existing directory. -/
def removeDirAll (fs : Node) (p : FsPath) : Option Node :=
  match lookup fs p with
  | some (Node.dir _) => removeAt fs p
  | _ => none

/-- Model of `fs::read_to_string`. -/
def readToString (fs : Node) (p : FsPath) : Except String String :=
  match lookup fs p with
  | some (Node.file c) => Except.ok c
  | some (Node.dir _) => Except.error "Is a directory"
  | none => Except.error "No such file or directory"

/-- Model of `fs::copy`: the source must be a regular file; the copy is a
write of its content to the destination. -/
def copyFile (fs : Node) (src dst : FsPath) : Option Node :=
  match lookup fs src with
  | some (Node.file c) => writeFile fs dst c
  | _ => none

/-- Model of `fs::read_dir`: the names of the direct entries, in directory
order. -/
def readDir (fs : Node) (p : FsPath) : Option (List String) :=
  match lookup fs p with
  | some (Node.dir cs) => some (cs.map Prod.fst)
  | _ => none

/-!
`copy_dir_all` from the source:

    fn copy_dir_all(src, dst) -> io::Result<()> {
        fs::create_dir_all(&dst)?;
        for entry in fs::read_dir(src)? {
            let ty = entry.file_type()?;
            if ty.is_dir() {
                copy_dir_all(entry.path(), dst.as_ref().join(entry.file_name()))?;
            } else {
                fs::copy(entry.path(), dst.as_ref().join(entry.file_name()))?;
            }
        }
        Ok(())
    }

The fuel argument bounds the recursion depth; the real function diverges
when the destination is created inside the source, and the model returns an
error in that situation instead.  Every mutating operation returns the
filesystem state reached so far together with the result, so failure states
(partially copied trees) are observable.
-/

mutual

/-- Model of `copy_dir_all` (`main.rs:157-169`). -/
def copy_dir_all : Nat → Node → FsPath → FsPath → Except String Unit × Node
  | 0, fs, _, _ => (Except.error "copy fuel exhausted", fs)
  | fuel + 1, fs, src, dst =>
    match createDirAll fs dst with
    | none => (Except.error "failed to create directory", fs)
    | some fs1 =>
      match readDir fs1 src with
      | none => (Except.error "failed to read directory", fs1)
      | some names => copyChildren fuel fs1 src dst names

/-- The `for entry in fs::read_dir(src)` loop of `copy_dir_all`: the first
failing child aborts the loop, keeping the state it failed in. -/
def copyChildren : Nat → Node → FsPath → FsPath → List String → Except String Unit × Node
  | _, fs, _, _, [] => (Except.ok (), fs)
  | 0, fs, _, _, _ :: _ => (Except.error "copy fuel exhausted", fs)
  | fuel + 1, fs, src, dst, name :: rest =>
    match copyChild fuel fs src dst name with
    | (Except.error e, fs2) => (Except.error e, fs2)
    | (Except.ok _, fs2) => copyChildren fuel fs2 src dst rest

/-- The body of the loop of `copy_dir_all`: recurse on a directory child,
`fs::copy` a file child. -/
def copyChild : Nat → Node → FsPath → FsPath → String → Except String Unit × Node
  | 0, fs, _, _, _ => (Except.error "copy fuel exhausted", fs)
  | fuel + 1, fs, src, dst, name =>
    if isDir fs (src ++ [name]) then
      copy_dir_all fuel fs (src ++ [name]) (dst ++ [name])
    else
      match copyFile fs (src ++ [name]) (dst ++ [name]) with
      | none => (Except.error "failed to copy file", fs)
      | some fs2 => (Except.ok (), fs2)

end

/-!
`move_data` from the source (`main.rs:119-155`).  The body of its entry
loop is `moveEntry`; `processEntries` is the loop itself, iterating over
the snapshot of entry names returned by `fs::read_dir(old_p)`.
-/

/-- One iteration of the `move_data` loop (`main.rs:145-152`): for a
directory entry, `copy_dir_all` then `fs::remove_dir_all`; otherwise
`fs::copy` then `fs::remove_file`. -/
def moveEntry (fuel : Nat) (fs : Node) (old_path new_path : FsPath)
    (name : String) : Except String Unit × Node :=
  let src := old_path ++ [name]
  let dst := new_path ++ [name]
  if isDir fs src then
    match copy_dir_all fuel fs src dst with
    | (Except.error e, fs1) => (Except.error ("Failed to copy directory: " ++ e), fs1)
    | (Except.ok _, fs1) =>
      match removeDirAll fs1 src with
      | none => (Except.error "Failed to remove old directory", fs1)
      | some fs2 => (Except.ok (), fs2)
  else
    match copyFile fs src dst with
    | none => (Except.error "Failed to copy file", fs)
    | some fs1 =>
      match removeFile fs1 src with
      | none => (Except.error "Failed to remove old file", fs1)
      | some fs2 => (Except.ok (), fs2)

/-- The `for entry in fs::read_dir(old_p)` loop of `move_data`
(`main.rs:136-153`): entries named `config.json` are skipped, the first
failing entry aborts the loop. -/
def processEntries (fuel : Nat) (fs : Node) (old_path new_path : FsPath) :
    List String → Except String Unit × Node
  | [] => (Except.ok (), fs)
  | name :: rest =>
    if name = "config.json" then processEntries fuel fs old_path new_path rest
    else
      match moveEntry fuel fs old_path new_path name with
      | (Except.error e, fs2) => (Except.error e, fs2)
      | (Except.ok _, fs2) => processEntries fuel fs2 old_path new_path rest

/-- Model of the `move_data` command (`main.rs:119-155`). -/
def move_data (fuel : Nat) (fs : Node) (old_path new_path : FsPath) :
    Except String Unit × Node :=
  if old_path = new_path ∨ old_path = [] ∨ new_path = [] then (Except.ok (), fs)
  else if pathExists fs old_path = false then (Except.ok (), fs)
  else
    match (if pathExists fs new_path then some fs else createDirAll fs new_path) with
    | none => (Except.error "Failed to create new directory", fs)
    | some fs1 =>
      match readDir fs1 old_path with
      | none => (Except.error "Failed to read old directory", fs1)
      | some names => processEntries fuel fs1 old_path new_path names

/-- A run of `move_data` that was interrupted after fully processing the
first `k` entries of the snapshot: the prefix of the same computation, used
to express states reachable by a partial failure. -/
def movePartial (fuel : Nat) (fs : Node) (old_path new_path : FsPath) (k : Nat) :
    Except String Unit × Node :=
  if old_path = new_path ∨ old_path = [] ∨ new_path = [] then (Except.ok (), fs)
  else if pathExists fs old_path = false then (Except.ok (), fs)
  else
    match (if pathExists fs new_path then some fs else createDirAll fs new_path) with
    | none => (Except.error "Failed to create new directory", fs)
    | some fs1 =>
      match readDir fs1 old_path with
      | none => (Except.error "Failed to read old directory", fs1)
      | some names => processEntries fuel fs1 old_path new_path (names.take k)

/-!
The other commands of `main.rs`.  JSON parsing and serialisation
(`serde_json`) are opaque to this layer and appear as function parameters;
the application config and data directories (provided by the Tauri handle)
appear as path parameters.
-/

/-- `TodoItem` (`main.rs:10-16`). -/
structure TodoItem where
  id : String
  title : String
  status : String
  folder_name : String
deriving DecidableEq

/-- `AppConfig` (`main.rs:18-29`). -/
structure AppConfig where
  data_path : String
  language : String
  theme : String
  font_family : String
  font_size : Nat
  text_color_light : String
  text_color_dark : String
  launch_at_login : Bool
deriving DecidableEq

/-- `default_config` (`main.rs:31-42`); `app_data_dir` stands for
`handle.path().app_data_dir()`. -/
def default_config (app_data_dir : String) : AppConfig :=
  { data_path := app_data_dir
    language := "zh-CN"
    theme := "light"
    font_family := "Arial"
    font_size := 14
    text_color_light := "#333333"
    text_color_dark := "#e5e5e5"
    launch_at_login := false }

/-- `get_app_config` (`main.rs:44-55`); `config_dir` stands for
`handle.path().app_config_dir()` and `parse` for
`serde_json::from_str::<AppConfig>`. -/
def get_app_config (fs : Node) (config_dir : FsPath)
    (parse : String → Option AppConfig) (app_data_dir : String) : AppConfig :=
  let config_path := config_dir ++ ["config.json"]
  if pathExists fs config_path = false then default_config app_data_dir
  else
    match readToString fs config_path with
    | Except.error _ => default_config app_data_dir
    | Except.ok content => (parse content).getD (default_config app_data_dir)

/-- `save_app_config` (`main.rs:57-67`); `ser` stands for
`serde_json::to_string(&config)` applied to the given config. -/
def save_app_config (fs : Node) (config_dir : FsPath) (ser : Option String) :
    Except String Unit × Node :=
  match (if pathExists fs config_dir then some fs else createDirAll fs config_dir) with
  | none => (Except.error "failed to create config dir", fs)
  | some fs1 =>
    match ser with
    | none => (Except.error "serialization failed", fs1)
    | some content =>
      match writeFile fs1 (config_dir ++ ["config.json"]) content with
      | none => (Except.error "write failed", fs1)
      | some fs2 => (Except.ok (), fs2)

/-- Outcome of a command that may panic: `get_todos` calls `.unwrap()` on
`fs::read_to_string`. -/
inductive Outcome (α : Type) where
  | ok (a : α)
  | panic
deriving DecidableEq

/-- `get_todos` (`main.rs:69-78`); `parse` stands for
`serde_json::from_str::<Vec<TodoItem>>`. -/
def get_todos (fs : Node) (data_path : FsPath)
    (parse : String → Option (List TodoItem)) : Outcome (List TodoItem) :=
  let todos_path := data_path ++ ["todos.json"]
  if pathExists fs todos_path then
    match readToString fs todos_path with
    | Except.ok content => Outcome.ok ((parse content).getD [])
    | Except.error _ => Outcome.panic
  else
    Outcome.ok []

/-- `save_todos` (`main.rs:80-90`); `ser` stands for
`serde_json::to_string(&todos)`. -/
def save_todos (fs : Node) (data_path : FsPath) (ser : Option String) :
    Except String Unit × Node :=
  match (if pathExists fs data_path then some fs else createDirAll fs data_path) with
  | none => (Except.error "failed to create data dir", fs)
  | some fs1 =>
    match ser with
    | none => (Except.error "serialization failed", fs1)
    | some content =>
      match writeFile fs1 (data_path ++ ["todos.json"]) content with
      | none => (Except.error "write failed", fs1)
      | some fs2 => (Except.ok (), fs2)

/-- `create_todo_folder` (`main.rs:92-99`); `uuid` stands for the string of
the freshly generated `Uuid::new_v4()`. -/
def create_todo_folder (fs : Node) (data_path : FsPath) (uuid : String) :
    Except String String × Node :=
  let folder_path := data_path ++ [uuid]
  match createDirAll fs folder_path with
  | none => (Except.error "failed to create folder", fs)
  | some fs1 =>
    match createDirAll fs1 (folder_path ++ ["assets"]) with
    | none => (Except.error "failed to create assets", fs1)
    | some fs2 => (Except.ok uuid, fs2)

/-- `save_todo_detail` (`main.rs:101-106`): a bare `fs::write`, no
directory creation. -/
def save_todo_detail (fs : Node) (data_path : FsPath) (folder_name : String)
    (content : String) : Except String Unit × Node :=
  match writeFile fs (data_path ++ [folder_name, "content.json"]) content with
  | none => (Except.error "write failed", fs)
  | some fs1 => (Except.ok (), fs1)

/-- `get_todo_detail` (`main.rs:108-116`). -/
def get_todo_detail (fs : Node) (data_path : FsPath) (folder_name : String) :
    Except String String :=
  let detail_path := data_path ++ [folder_name, "content.json"]
  if pathExists fs detail_path then readToString fs detail_path
  else Except.ok "{}"

/-!
Auxiliary notions used by the specifications: well-formedness of a tree
(directory entry names are unique at every level, as on a real filesystem)
and the sub-tree relation (`subtreeLeB t t'` holds when every file and
subdirectory of `t` appears in `t'` at the same relative path with the same
content — "`t` has been copied into `t'`", allowing `t'` to hold additional
pre-existing entries). -/

mutual

/-- Well-formed tree: no duplicate entry names in any directory. -/
def nodeWF : Node → Bool
  | Node.file _ => true
  | Node.dir cs => (cs.map Prod.fst).Nodup && childrenWF cs

/-- All children well-formed. -/
def childrenWF : List (String × Node) → Bool
  | [] => true
  | c :: rest => nodeWF c.2 && childrenWF rest

end

mutual

/-- Sub-tree relation: every file/subdirectory of the first tree appears in
the second one at the same relative position. -/
def subtreeLeB : Node → Node → Bool
  | Node.file c, Node.file c2 => decide (c = c2)
  | Node.file _, Node.dir _ => false
  | Node.dir _, Node.file _ => false
  | Node.dir cs, Node.dir cs2 => subtreeChildren cs cs2

/-- Every child of the first list appears (as a sub-tree) in the second. -/
def subtreeChildren : List (String × Node) → List (String × Node) → Bool
  | [], _ => true
  | c :: rest, cs2 =>
    (match assoc cs2 c.1 with
     | some t2 => subtreeLeB c.2 t2
     | none => false) && subtreeChildren rest cs2

end

/-- Two paths are disjoint when neither is a prefix of the other: they
address separate parts of the tree. -/
def Disj (p q : FsPath) : Prop :=
  ¬ p <+: q ∧ ¬ q <+: p

/-!
Concrete filesystem trees used to instantiate and to refute the claims.
-/

/-- A data directory `o` (config file, one todo folder with assets, todo
index) next to an empty target directory `n`. -/
def demoTree : Node :=
  Node.dir [("o", Node.dir [
    ("config.json", Node.file "cfg"),
    ("t1", Node.dir [
      ("content.json", Node.file "D"),
      ("assets", Node.dir [("img.png", Node.file "P")])]),
    ("todos.json", Node.file "[]")]),
  ("n", Node.dir [])]

/-- Overlapping roots: moving `a/b` into its parent `a`, where `a/b` holds
an entry named `b`. -/
def overlapRetryTree : Node :=
  Node.dir [("a", Node.dir [("b", Node.dir [
    ("b", Node.dir [("x", Node.file "1")]),
    ("c", Node.file "2")])])]

/-- Overlapping roots with a nested `config.json` that lands on top of the
real one. -/
def overlapConfigTree : Node :=
  Node.dir [("a", Node.dir [("b", Node.dir [
    ("config.json", Node.file "orig"),
    ("b", Node.dir [("config.json", Node.file "evil")])])])]

/-- Overlapping roots where a chain of entries named `q` makes the
copy-then-delete of entry `q` destroy its own copy. -/
def overlapLossTree : Node :=
  Node.dir [("n", Node.dir [("q", Node.dir [("q", Node.dir [("q", Node.dir [
    ("f", Node.file "x")])])])])]

/-- A source directory with a file and a subdirectory, next to an empty
destination. -/
def copyDemoTree : Node :=
  Node.dir [("s", Node.dir [("f", Node.file "1"),
    ("sub", Node.dir [("g", Node.file "2")])]), ("d", Node.dir [])]

/-- A copy source whose file child collides with an existing directory at
the destination, making `fs::copy` fail after nothing else was copied. -/
def copyFailTree : Node :=
  Node.dir [("s", Node.dir [("a", Node.file "0"), ("z", Node.file "1")]),
    ("d", Node.dir [("z", Node.dir [])])]

/-- A `content.json` that exists but is a directory. -/
def detailDirTree : Node :=
  Node.dir [("dp", Node.dir [("f", Node.dir [("content.json", Node.dir [])])])]

/-- A `todos.json` that exists but is a directory. -/
def todosDirTree : Node :=
  Node.dir [("dp", Node.dir [("todos.json", Node.dir [])])]

/-- A `todos.json` that is a regular file. -/
def todosFileTree : Node :=
  Node.dir [("dp", Node.dir [("todos.json", Node.file "X")])]

/-- A config directory holding a readable `config.json`. -/
def configFileTree : Node :=
  Node.dir [("cfg", Node.dir [("config.json", Node.file "J")])]

/-- A `config.json` that exists but is a directory (unreadable). -/
def configDirTree : Node :=
  Node.dir [("cfg", Node.dir [("config.json", Node.dir [])])]

/-- The empty root. -/
def emptyTree : Node :=
  Node.dir []

/-! Basic facts about disjoint paths. -/

theorem Disj.symm {p q : FsPath} (h : Disj p q) : Disj q p :=
  ⟨h.2, h.1⟩

theorem Disj.ne_nil_left {p q : FsPath} (h : Disj p q) : p ≠ [] := by
  rintro rfl
  exact h.1 List.nil_prefix

theorem Disj.ne_nil_right {p q : FsPath} (h : Disj p q) : q ≠ [] :=
  h.symm.ne_nil_left

theorem Disj.ne {p q : FsPath} (h : Disj p q) : p ≠ q := by
  rintro rfl
  exact h.1 List.prefix_rfl

theorem not_prefix_append {p q a b : FsPath} (h1 : ¬ p <+: q) (h2 : ¬ q <+: p) :
    ¬ (p ++ a <+: q ++ b) := by
  intro hpre
  rcases le_or_lt (p ++ a).length q.length with hle | hlt
  · exact h1 ((List.prefix_append p a).trans
      (List.prefix_of_prefix_length_le hpre (List.prefix_append q b) hle))
  · have hq : q <+: p ++ a :=
      List.prefix_of_prefix_length_le (List.prefix_append q b) hpre (le_of_lt hlt)
    rcases le_or_lt q.length p.length with hle2 | hlt2
    · exact h2 (List.prefix_of_prefix_length_le hq (List.prefix_append p a) hle2)
    · exact h1 (List.prefix_of_prefix_length_le (List.prefix_append p a) hq (le_of_lt hlt2))

theorem Disj.append {p q : FsPath} (h : Disj p q) (a b : FsPath) :
    Disj (p ++ a) (q ++ b) :=
  ⟨not_prefix_append h.1 h.2, not_prefix_append h.2 h.1⟩

theorem Disj.append_right {p q : FsPath} (h : Disj p q) (b : FsPath) :
    Disj p (q ++ b) := by
  have := h.append [] b
  rwa [List.append_nil] at this

theorem Disj.append_left {p q : FsPath} (h : Disj p q) (a : FsPath) :
    Disj (p ++ a) q := by
  have := h.append a []
  rwa [List.append_nil] at this

theorem disj_sibling {p : FsPath} {k k' : String} (h : k ≠ k') :
    Disj (p ++ [k]) (p ++ [k']) := by
  constructor
  · intro hpre
    have := hpre.eq_of_length (by simp)
    exact h (by simpa using List.append_cancel_left this)
  · intro hpre
    have := hpre.eq_of_length (by simp)
    exact h (by simpa using (List.append_cancel_left this).symm)

theorem disj_cons {k k' : String} {p q : FsPath} (hk : k ≠ k') :
    Disj (k :: p) (k' :: q) := by
  constructor
  · intro hpre
    exact hk (List.cons_prefix_cons.mp hpre).1
  · intro hpre
    exact hk ((List.cons_prefix_cons.mp hpre).1).symm

theorem disj_cons_iff {k : String} {p q : FsPath} :
    Disj (k :: p) (k :: q) ↔ Disj p q := by
  unfold Disj
  simp [List.cons_prefix_cons]

/-! Basic facts about children lists. -/

theorem assoc_setChild_self (cs : List (String × Node)) (k : String) (v : Node) :
    assoc (setChild cs k v) k = some v := by
  induction cs with
  | nil => simp [setChild, assoc]
  | cons c rest ih =>
    by_cases h : c.1 = k
    · simp [setChild, h, assoc]
    · simp [setChild, h, assoc, ih]

theorem assoc_setChild_ne (cs : List (String × Node)) (k k' : String) (v : Node)
    (h : k' ≠ k) : assoc (setChild cs k v) k' = assoc cs k' := by
  have hkk : ¬ k = k' := fun hh => h hh.symm
  induction cs with
  | nil => simp [setChild, assoc, hkk]
  | cons c rest ih =>
    by_cases hc : c.1 = k
    · simp only [setChild, if_pos hc, assoc, hc]
      rw [if_neg hkk, if_neg hkk]
    · simp only [setChild, if_neg hc, assoc]
      by_cases hck : c.1 = k'
      · simp [hck]
      · simp [hck, ih]

theorem setChild_assoc_self (cs : List (String × Node)) (k : String) (v : Node)
    (h : assoc cs k = some v) : setChild cs k v = cs := by
  induction cs with
  | nil => simp [assoc] at h
  | cons c rest ih =>
    by_cases hc : c.1 = k
    · simp only [assoc, if_pos hc] at h
      obtain ⟨k0, v0⟩ := c
      simp only at hc
      subst hc
      cases h
      simp [setChild]
    · simp only [assoc, if_neg hc] at h
      simp [setChild, hc, ih h]

theorem assoc_eraseChild_self (cs : List (String × Node)) (k : String) :
    assoc (eraseChild cs k) k = none := by
  induction cs with
  | nil => simp [eraseChild, assoc]
  | cons c rest ih =>
    by_cases hc : c.1 = k
    · simpa [eraseChild, hc] using ih
    · simpa [eraseChild, assoc, hc] using ih

theorem assoc_eraseChild_ne (cs : List (String × Node)) (k k' : String)
    (h : k' ≠ k) : assoc (eraseChild cs k) k' = assoc cs k' := by
  induction cs with
  | nil => simp [eraseChild, assoc]
  | cons c rest ih =>
    by_cases hc : c.1 = k
    · have hck : ¬ c.1 = k' := by
        rw [hc]
        exact fun hh => h hh.symm
      simp only [eraseChild, if_pos hc, assoc, if_neg hck]
      exact ih
    · simp only [eraseChild, if_neg hc, assoc]
      by_cases hck : c.1 = k'
      · simp [hck]
      · simp [hck, ih]

theorem assoc_of_mem_nodup {cs : List (String × Node)} {k : String} {v : Node}
    (hnd : (cs.map Prod.fst).Nodup) (hmem : (k, v) ∈ cs) : assoc cs k = some v := by
  induction cs with
  | nil => cases hmem
  | cons c rest ih =>
    rcases List.mem_cons.mp hmem with h | h
    · subst h
      simp [assoc]
    · have hc : c.1 ≠ k := by
        intro hh
        have : k ∈ rest.map Prod.fst := List.mem_map.mpr ⟨(k, v), h, rfl⟩
        rw [List.map_cons, List.nodup_cons] at hnd
        exact hnd.1 (hh ▸ this)
      rw [List.map_cons, List.nodup_cons] at hnd
      simp [assoc, hc, ih hnd.2 h]

theorem mem_of_assoc_some {cs : List (String × Node)} {k : String} {v : Node}
    (h : assoc cs k = some v) : (k, v) ∈ cs := by
  induction cs with
  | nil => simp [assoc] at h
  | cons c rest ih =>
    by_cases hc : c.1 = k
    · simp only [assoc, if_pos hc] at h
      obtain ⟨k0, v0⟩ := c
      simp only at hc
      subst hc
      cases h
      exact List.mem_cons_self _ _
    · simp only [assoc, if_neg hc] at h
      exact List.mem_cons_of_mem _ (ih h)

theorem assoc_mem_map_fst {cs : List (String × Node)} {k : String} {v : Node}
    (h : assoc cs k = some v) : k ∈ cs.map Prod.fst :=
  List.mem_map.mpr ⟨(k, v), mem_of_assoc_some h, rfl⟩

theorem setChild_append (cs : List (String × Node)) (k : String) (v : Node)
    (h : assoc cs k = none) : setChild cs k v = cs ++ [(k, v)] := by
  induction cs with
  | nil => rfl
  | cons c rest ih =>
    rw [assoc] at h
    by_cases hc : c.1 = k
    · rw [if_pos hc] at h
      cases h
    · rw [if_neg hc] at h
      rw [setChild, if_neg hc, List.cons_append, ih h]

theorem setChild_setChild (cs : List (String × Node)) (k : String) (v1 v2 : Node) :
    setChild (setChild cs k v1) k v2 = setChild cs k v2 := by
  induction cs with
  | nil => simp [setChild]
  | cons c rest ih =>
    by_cases hc : c.1 = k
    · simp [setChild, hc]
    · simp [setChild, hc, ih]

theorem assoc_append_of_none (a b : List (String × Node)) (k : String)
    (h : assoc a k = none) : assoc (a ++ b) k = assoc b k := by
  induction a with
  | nil => rfl
  | cons c rest ih =>
    rw [assoc] at h
    by_cases hc : c.1 = k
    · rw [if_pos hc] at h
      cases h
    · rw [if_neg hc] at h
      rw [List.cons_append, assoc, if_neg hc, ih h]

/-! Path resolution along concatenations. -/

theorem lookup_append (fs : Node) (p q : FsPath) :
    lookup fs (p ++ q) = (lookup fs p).bind (fun t => lookup t q) := by
  induction p generalizing fs with
  | nil => simp [lookup]
  | cons k rest ih =>
    cases fs with
    | file c => simp [lookup]
    | dir cs =>
      simp only [List.cons_append, lookup]
      cases assoc cs k with
      | none => simp
      | some child => simpa using ih child

theorem lookup_append_single (fs : Node) (p : FsPath) (k : String) (cs : List (String × Node))
    (h : lookup fs p = some (Node.dir cs)) :
    lookup fs (p ++ [k]) = assoc cs k := by
  rw [lookup_append, h]
  cases h2 : assoc cs k with
  | none => simp [lookup, h2]
  | some child => simp [lookup, h2]

/-! Effect of `writeFile` at its own path, and non-interference elsewhere. -/

theorem writeFile_lookup_self : ∀ (q : FsPath) (fs fs' : Node) (c : String),
    writeFile fs q c = some fs' → lookup fs' q = some (Node.file c)
  | [], fs, fs', c, h => by simp [writeFile] at h
  | k :: qs, Node.file _, fs', c, h => by simp [writeFile] at h
  | [k], Node.dir cs, fs', c, h => by
    simp only [writeFile] at h
    split at h
    · exact absurd h (by simp)
    · cases h
      simp [lookup, assoc_setChild_self]
  | k :: k2 :: qs, Node.dir cs, fs', c, h => by
    simp only [writeFile] at h
    split at h
    · exact absurd h (by simp)
    · rename_i child ha
      split at h
      · exact absurd h (by simp)
      · rename_i child2 hw
        cases h
        have := writeFile_lookup_self (k2 :: qs) child child2 c hw
        simp [lookup, assoc_setChild_self, this]

/-- Unfolding equation for `writeFile` on a cons path with a nonempty tail
(stated this way because the tail is often an opaque concatenation). -/
theorem writeFile_cons_of_ne_nil (cs : List (String × Node)) (k0 : String)
    (t : FsPath) (c : String) (ht : t ≠ []) :
    writeFile (Node.dir cs) (k0 :: t) c =
      (match assoc cs k0 with
       | none => none
       | some child =>
         match writeFile child t c with
         | none => none
         | some child2 => some (Node.dir (setChild cs k0 child2))) := by
  cases t with
  | nil => exact absurd rfl ht
  | cons t1 ts => rfl

/-- Unfolding equation for `removeAt` on a cons path with a nonempty tail. -/
theorem removeAt_cons_of_ne_nil (cs : List (String × Node)) (k0 : String)
    (t : FsPath) (ht : t ≠ []) :
    removeAt (Node.dir cs) (k0 :: t) =
      (match assoc cs k0 with
       | none => none
       | some child =>
         match removeAt child t with
         | none => none
         | some child2 => some (Node.dir (setChild cs k0 child2))) := by
  cases t with
  | nil => exact absurd rfl ht
  | cons t1 ts => rfl

theorem writeFile_parent_dir : ∀ (q : FsPath) (fs fs' : Node) (k c : String),
    writeFile fs (q ++ [k]) c = some fs' → ∃ cs, lookup fs q = some (Node.dir cs)
  | [], fs, fs', k, c, h => by
    cases fs with
    | file c0 => simp [writeFile] at h
    | dir cs => exact ⟨cs, by simp [lookup]⟩
  | k0 :: qs, fs, fs', k, c, h => by
    cases fs with
    | file c0 => simp [writeFile] at h
    | dir cs =>
      rw [List.cons_append, writeFile_cons_of_ne_nil cs k0 (qs ++ [k]) c (by simp)] at h
      split at h
      · exact absurd h (by simp)
      · rename_i child ha
        split at h
        · exact absurd h (by simp)
        · rename_i child2 hw
          obtain ⟨cs2, h2⟩ := writeFile_parent_dir qs child child2 k c hw
          exact ⟨cs2, by simp [lookup, ha, h2]⟩

theorem writeFile_ok : ∀ (q : FsPath) (fs : Node) (k c : String)
    (cs : List (String × Node)), lookup fs q = some (Node.dir cs) →
    (∀ cs2, assoc cs k ≠ some (Node.dir cs2)) →
    ∃ fs', writeFile fs (q ++ [k]) c = some fs'
  | [], fs, k, c, cs, h, hnd => by
    rw [lookup] at h
    cases h
    simp only [List.nil_append, writeFile]
    cases ha : assoc cs k with
    | none => exact ⟨Node.dir (setChild cs k (Node.file c)), by simp [ha]⟩
    | some child =>
      cases child with
      | file c0 => exact ⟨Node.dir (setChild cs k (Node.file c)), by simp [ha]⟩
      | dir cs2 => exact absurd ha (hnd cs2)
  | k0 :: qs, fs, k, c, cs, h, hnd => by
    cases fs with
    | file c0 => simp [lookup] at h
    | dir cs0 =>
      rw [lookup] at h
      cases ha : assoc cs0 k0 with
      | none => rw [ha] at h; simp at h
      | some child =>
        rw [ha] at h
        simp only at h
        obtain ⟨child2, h2⟩ := writeFile_ok qs child k c cs h hnd
        rw [List.cons_append, writeFile_cons_of_ne_nil cs0 k0 (qs ++ [k]) c (by simp)]
        exact ⟨Node.dir (setChild cs0 k0 child2), by simp [ha, h2]⟩

theorem writeFile_lookup_disj : ∀ (q : FsPath) (fs fs' : Node) (c : String) (p : FsPath),
    writeFile fs q c = some fs' → Disj p q → lookup fs' p = lookup fs p
  | [], fs, fs', c, p, h, _ => by simp [writeFile] at h
  | k :: qs, Node.file _, fs', c, p, h, _ => by simp [writeFile] at h
  | [k], Node.dir cs, fs', c, p, h, hd => by
    cases p with
    | nil => exact absurd List.nil_prefix hd.1
    | cons x xs =>
      by_cases hxk : x = k
      · subst hxk
        exact absurd (List.cons_prefix_cons.mpr ⟨rfl, List.nil_prefix⟩) hd.2
      · simp only [writeFile] at h
        split at h
        · exact absurd h (by simp)
        · cases h
          simp [lookup, assoc_setChild_ne cs k x _ (fun hh => hxk hh)]
  | k :: k2 :: qs, Node.dir cs, fs', c, p, h, hd => by
    cases p with
    | nil => exact absurd List.nil_prefix hd.1
    | cons x xs =>
      simp only [writeFile] at h
      split at h
      · exact absurd h (by simp)
      · rename_i child ha
        split at h
        · exact absurd h (by simp)
        · rename_i child2 hw
          cases h
          by_cases hxk : x = k
          · subst hxk
            have hd2 : Disj xs (k2 :: qs) := disj_cons_iff.mp hd
            have := writeFile_lookup_disj (k2 :: qs) child child2 c xs hw hd2
            simp [lookup, assoc_setChild_self, ha, this]
          · simp [lookup, assoc_setChild_ne cs k x _ (fun hh => hxk hh)]

theorem writeFile_preserves_lookup : ∀ (q : FsPath) (fs fs' : Node) (c : String),
    writeFile fs q c = some fs' → ∀ (p : FsPath) (t : Node), lookup fs p = some t →
    ∃ t', lookup fs' p = some t' ∧
      (∀ cs0, t = Node.dir cs0 → ∃ cs1, t' = Node.dir cs1)
  | [], fs, fs', c, h, p, t, hp => by simp [writeFile] at h
  | k :: qs, Node.file _, fs', c, h, p, t, hp => by simp [writeFile] at h
  | [k], Node.dir cs, fs', c, h, p, t, hp => by
    simp only [writeFile] at h
    split at h
    · exact absurd h (by simp)
    · rename_i hnotdir
      cases h
      cases p with
      | nil =>
        rw [lookup] at hp
        cases hp
        exact ⟨Node.dir (setChild cs k (Node.file c)), by rw [lookup], fun cs0 _ => ⟨_, rfl⟩⟩
      | cons x xs =>
        by_cases hxk : x = k
        · subst hxk
          rw [lookup] at hp
          cases ha : assoc cs x with
          | none => rw [ha] at hp; simp at hp
          | some child =>
            rw [ha] at hp
            simp only at hp
            cases child with
            | dir cs2 => exact (hnotdir cs2 ha).elim
            | file c0 =>
              cases xs with
              | nil =>
                rw [lookup] at hp
                cases hp
                refine ⟨Node.file c, ?_, fun cs0 hdir => by cases hdir⟩
                simp [lookup, assoc_setChild_self]
              | cons y ys => simp [lookup] at hp
        · refine ⟨t, ?_, fun cs0 hdir => ⟨cs0, hdir ▸ rfl⟩⟩
          rw [← hp]
          simp [lookup, assoc_setChild_ne cs k x _ (fun hh => hxk hh)]
  | k :: k2 :: qs, Node.dir cs, fs', c, h, p, t, hp => by
    simp only [writeFile] at h
    split at h
    · exact absurd h (by simp)
    · rename_i child ha
      split at h
      · exact absurd h (by simp)
      · rename_i child2 hw
        cases h
        cases p with
        | nil =>
          rw [lookup] at hp
          cases hp
          exact ⟨Node.dir (setChild cs k child2), by rw [lookup], fun cs0 _ => ⟨_, rfl⟩⟩
        | cons x xs =>
          by_cases hxk : x = k
          · subst hxk
            rw [lookup, ha] at hp
            simp only at hp
            obtain ⟨t', ht', hdir⟩ :=
              writeFile_preserves_lookup (k2 :: qs) child child2 c hw xs t hp
            exact ⟨t', by simp [lookup, assoc_setChild_self, ht'], hdir⟩
          · refine ⟨t, ?_, fun cs0 hdir => ⟨cs0, hdir ▸ rfl⟩⟩
            rw [← hp]
            simp [lookup, assoc_setChild_ne cs k x _ (fun hh => hxk hh)]

/-- A write strictly below the child `k` of an ancestor directory `q`
changes that directory's children exactly by a `setChild` at `k`. -/
theorem writeFile_ancestor_setChild : ∀ (q : FsPath) (fs fs' : Node) (p : FsPath)
    (k c : String), writeFile fs p c = some fs' → (q ++ [k]) <+: p →
    ∀ cs0, lookup fs q = some (Node.dir cs0) →
    ∃ v', lookup fs' q = some (Node.dir (setChild cs0 k v'))
  | [], fs, fs', p, k, c, h, hpre, cs0, hq => by
    obtain ⟨t, rfl⟩ := hpre
    rw [lookup] at hq
    cases hq
    cases t with
    | nil =>
      simp only [writeFile] at h
      split at h
      · exact absurd h (by simp)
      · cases h
        exact ⟨Node.file c, by rw [lookup]⟩
    | cons k2 rest =>
      simp only [writeFile] at h
      split at h
      · exact absurd h (by simp)
      · rename_i child ha
        split at h
        · exact absurd h (by simp)
        · rename_i child2 hw
          cases h
          exact ⟨child2, by rw [lookup]⟩
  | x :: q', fs, fs', p, k, c, h, hpre, cs0, hq => by
    obtain ⟨t, rfl⟩ := hpre
    cases fs with
    | file c0 => simp [lookup] at hq
    | dir cs =>
      rw [lookup] at hq
      cases ha : assoc cs x with
      | none => rw [ha] at hq; simp at hq
      | some child =>
        rw [ha] at hq
        simp only at hq
        rw [List.cons_append, List.cons_append,
          writeFile_cons_of_ne_nil cs x ((q' ++ [k]) ++ t) c (by simp), ha] at h
        simp only at h
        split at h
        · exact absurd h (by simp)
        · rename_i child2 hw
          cases h
          obtain ⟨v', hv'⟩ := writeFile_ancestor_setChild q' child child2
            ((q' ++ [k]) ++ t) k c hw ⟨t, rfl⟩ cs0 hq
          exact ⟨v', by simp [lookup, assoc_setChild_self, hv']⟩

/-! Effect of `createDirAll` at its own path, and non-interference
elsewhere. -/

theorem createDirAll_isDir : ∀ (q : FsPath) (fs fs' : Node),
    createDirAll fs q = some fs' → ∃ cs', lookup fs' q = some (Node.dir cs')
  | [], Node.file _, fs', h => by simp [createDirAll] at h
  | [], Node.dir cs, fs', h => by
    rw [createDirAll] at h
    cases h
    exact ⟨cs, by rw [lookup]⟩
  | _ :: _, Node.file _, fs', h => by simp [createDirAll] at h
  | k :: qs, Node.dir cs, fs', h => by
    rw [createDirAll] at h
    split at h
    · rename_i child ha
      split at h
      · exact absurd h (by simp)
      · rename_i child2 hc
        cases h
        obtain ⟨cs', h2⟩ := createDirAll_isDir qs child child2 hc
        exact ⟨cs', by simp [lookup, assoc_setChild_self, h2]⟩
    · rename_i ha
      split at h
      · exact absurd h (by simp)
      · rename_i child2 hc
        cases h
        obtain ⟨cs', h2⟩ := createDirAll_isDir qs (Node.dir []) child2 hc
        exact ⟨cs', by simp [lookup, assoc_setChild_self, h2]⟩

theorem createDirAll_fresh : ∀ (q : FsPath) (fs fs' : Node),
    createDirAll fs q = some fs' → lookup fs q = none →
    lookup fs' q = some (Node.dir [])
  | [], fs, fs', h, hnone => by simp [lookup] at hnone
  | k :: qs, Node.file _, fs', h, hnone => by simp [createDirAll] at h
  | k :: qs, Node.dir cs, fs', h, hnone => by
    rw [createDirAll] at h
    split at h
    · rename_i child ha
      split at h
      · exact absurd h (by simp)
      · rename_i child2 hc
        cases h
        rw [lookup, ha] at hnone
        simp only at hnone
        have h2 := createDirAll_fresh qs child child2 hc hnone
        simp [lookup, assoc_setChild_self, h2]
    · rename_i ha
      split at h
      · exact absurd h (by simp)
      · rename_i child2 hc
        cases h
        cases qs with
        | nil =>
          rw [createDirAll] at hc
          cases hc
          simp [lookup, assoc_setChild_self]
        | cons q1 qt =>
          have h2 := createDirAll_fresh (q1 :: qt) (Node.dir []) child2 hc
            (by simp [lookup, assoc])
          simp [lookup, assoc_setChild_self, h2]

theorem createDirAll_noop : ∀ (q : FsPath) (fs : Node) (cs : List (String × Node)),
    lookup fs q = some (Node.dir cs) → createDirAll fs q = some fs
  | [], fs, cs, h => by
    rw [lookup] at h
    cases h
    rw [createDirAll]
  | k :: qs, Node.file _, cs, h => by simp [lookup] at h
  | k :: qs, Node.dir cs0, cs, h => by
    rw [lookup] at h
    cases ha : assoc cs0 k with
    | none => rw [ha] at h; simp at h
    | some child =>
      rw [ha] at h
      simp only at h
      have h2 := createDirAll_noop qs child cs h
      rw [createDirAll]
      simp [ha, h2, setChild_assoc_self cs0 k child ha]

theorem createDirAll_lookup_disj : ∀ (q : FsPath) (fs fs' : Node) (p : FsPath),
    createDirAll fs q = some fs' → Disj p q → lookup fs' p = lookup fs p
  | [], fs, fs', p, h, hd => by exact absurd List.nil_prefix hd.2
  | k :: qs, Node.file _, fs', p, h, hd => by simp [createDirAll] at h
  | k :: qs, Node.dir cs, fs', p, h, hd => by
    cases p with
    | nil => exact absurd List.nil_prefix hd.1
    | cons x xs =>
      rw [createDirAll] at h
      by_cases hxk : x = k
      · subst hxk
        have hd2 : Disj xs qs := disj_cons_iff.mp hd
        split at h
        · rename_i child ha
          split at h
          · exact absurd h (by simp)
          · rename_i child2 hc
            cases h
            have := createDirAll_lookup_disj qs child child2 xs hc hd2
            simp [lookup, assoc_setChild_self, ha, this]
        · rename_i ha
          split at h
          · exact absurd h (by simp)
          · rename_i child2 hc
            cases h
            have := createDirAll_lookup_disj qs (Node.dir []) child2 xs hc hd2
            have hxs : lookup (Node.dir ([] : List (String × Node))) xs = none := by
              cases xs with
              | nil => exact absurd List.nil_prefix hd2.1
              | cons y ys => simp [lookup, assoc]
            simp [lookup, assoc_setChild_self, ha, this, hxs]
      · have hset : ∀ (child2 : Node),
            lookup (Node.dir (setChild cs k child2)) (x :: xs) =
              lookup (Node.dir cs) (x :: xs) := by
          intro child2
          simp [lookup, assoc_setChild_ne cs k x _ (fun hh => hxk hh)]
        split at h
        · rename_i child ha
          split at h
          · exact absurd h (by simp)
          · rename_i child2 hc
            cases h
            exact hset child2
        · rename_i ha
          split at h
          · exact absurd h (by simp)
          · rename_i child2 hc
            cases h
            exact hset child2

theorem createDirAll_preserves_lookup : ∀ (q : FsPath) (fs fs' : Node),
    createDirAll fs q = some fs' → ∀ (p : FsPath) (t : Node), lookup fs p = some t →
    ∃ t', lookup fs' p = some t' ∧
      (∀ cs0, t = Node.dir cs0 → ∃ cs1, t' = Node.dir cs1)
  | [], Node.file _, fs', h, p, t, hp => by simp [createDirAll] at h
  | [], Node.dir cs, fs', h, p, t, hp => by
    rw [createDirAll] at h
    cases h
    exact ⟨t, hp, fun cs0 hdir => ⟨cs0, hdir ▸ rfl⟩⟩
  | k :: qs, Node.file _, fs', h, p, t, hp => by simp [createDirAll] at h
  | k :: qs, Node.dir cs, fs', h, p, t, hp => by
    rw [createDirAll] at h
    cases p with
    | nil =>
      rw [lookup] at hp
      cases hp
      split at h
      · rename_i child ha
        split at h
        · exact absurd h (by simp)
        · cases h
          exact ⟨_, by rw [lookup], fun cs0 _ => ⟨_, rfl⟩⟩
      · rename_i ha
        split at h
        · exact absurd h (by simp)
        · cases h
          exact ⟨_, by rw [lookup], fun cs0 _ => ⟨_, rfl⟩⟩
    | cons x xs =>
      by_cases hxk : x = k
      · subst hxk
        rw [lookup] at hp
        split at h
        · rename_i child ha
          split at h
          · exact absurd h (by simp)
          · rename_i child2 hc
            cases h
            rw [ha] at hp
            simp only at hp
            obtain ⟨t', ht', hdir⟩ := createDirAll_preserves_lookup qs child child2 hc xs t hp
            exact ⟨t', by simp [lookup, assoc_setChild_self, ht'], hdir⟩
        · rename_i ha
          rw [ha] at hp
          simp at hp
      · refine ⟨t, ?_, fun cs0 hdir => ⟨cs0, hdir ▸ rfl⟩⟩
        rw [← hp]
        have hset : ∀ (child2 : Node),
            lookup (Node.dir (setChild cs k child2)) (x :: xs) =
              lookup (Node.dir cs) (x :: xs) := by
          intro child2
          simp [lookup, assoc_setChild_ne cs k x _ (fun hh => hxk hh)]
        split at h
        · rename_i child ha
          split at h
          · exact absurd h (by simp)
          · rename_i child2 hc
            cases h
            exact hset child2
        · rename_i ha
          split at h
          · exact absurd h (by simp)
          · rename_i child2 hc
            cases h
            exact hset child2

/-- Creating directories strictly below the child `k` of an ancestor
directory `q` changes that directory's children exactly by a `setChild` at
`k`. -/
theorem createDirAll_ancestor_setChild : ∀ (q : FsPath) (fs fs' : Node) (p : FsPath)
    (k : String), createDirAll fs p = some fs' → (q ++ [k]) <+: p →
    ∀ cs0, lookup fs q = some (Node.dir cs0) →
    ∃ v', lookup fs' q = some (Node.dir (setChild cs0 k v'))
  | [], fs, fs', p, k, h, hpre, cs0, hq => by
    obtain ⟨t, rfl⟩ := hpre
    rw [lookup] at hq
    cases hq
    rw [List.nil_append, List.cons_append, createDirAll] at h
    split at h
    · rename_i child ha
      split at h
      · exact absurd h (by simp)
      · rename_i child2 hc
        cases h
        exact ⟨child2, by rw [lookup]⟩
    · rename_i ha
      split at h
      · exact absurd h (by simp)
      · rename_i child2 hc
        cases h
        exact ⟨child2, by rw [lookup]⟩
  | x :: q', fs, fs', p, k, h, hpre, cs0, hq => by
    obtain ⟨t, rfl⟩ := hpre
    cases fs with
    | file c0 => simp [lookup] at hq
    | dir cs =>
      rw [lookup] at hq
      cases ha : assoc cs x with
      | none => rw [ha] at hq; simp at hq
      | some child =>
        rw [ha] at hq
        simp only at hq
        rw [List.cons_append, List.cons_append, createDirAll, ha] at h
        simp only at h
        split at h
        · exact absurd h (by simp)
        · rename_i child2 hc
          cases h
          obtain ⟨v', hv'⟩ := createDirAll_ancestor_setChild q' child child2
            ((q' ++ [k]) ++ t) k hc ⟨t, rfl⟩ cs0 hq
          exact ⟨v', by simp [lookup, assoc_setChild_self, hv']⟩

/-! Effect of `removeAt` at its own path, and non-interference elsewhere. -/

theorem removeAt_lookup_self : ∀ (q : FsPath) (fs fs' : Node),
    removeAt fs q = some fs' → lookup fs' q = none
  | [], fs, fs', h => by simp [removeAt] at h
  | k :: qs, Node.file _, fs', h => by simp [removeAt] at h
  | [k], Node.dir cs, fs', h => by
    rw [removeAt] at h
    split at h
    · exact absurd h (by simp)
    · cases h
      simp [lookup, assoc_eraseChild_self]
  | k :: k2 :: qs, Node.dir cs, fs', h => by
    rw [removeAt] at h
    split at h
    · exact absurd h (by simp)
    · rename_i child ha
      split at h
      · exact absurd h (by simp)
      · rename_i child2 hr
        cases h
        have := removeAt_lookup_self (k2 :: qs) child child2 hr
        simp [lookup, assoc_setChild_self, this]

theorem removeAt_lookup_disj : ∀ (q : FsPath) (fs fs' : Node) (p : FsPath),
    removeAt fs q = some fs' → Disj p q → lookup fs' p = lookup fs p
  | [], fs, fs', p, h, _ => by simp [removeAt] at h
  | k :: qs, Node.file _, fs', p, h, _ => by simp [removeAt] at h
  | [k], Node.dir cs, fs', p, h, hd => by
    cases p with
    | nil => exact absurd List.nil_prefix hd.1
    | cons x xs =>
      by_cases hxk : x = k
      · subst hxk
        exact absurd (List.cons_prefix_cons.mpr ⟨rfl, List.nil_prefix⟩) hd.2
      · rw [removeAt] at h
        split at h
        · exact absurd h (by simp)
        · cases h
          simp [lookup, assoc_eraseChild_ne cs k x (fun hh => hxk hh)]
  | k :: k2 :: qs, Node.dir cs, fs', p, h, hd => by
    cases p with
    | nil => exact absurd List.nil_prefix hd.1
    | cons x xs =>
      rw [removeAt] at h
      split at h
      · exact absurd h (by simp)
      · rename_i child ha
        split at h
        · exact absurd h (by simp)
        · rename_i child2 hr
          cases h
          by_cases hxk : x = k
          · subst hxk
            have hd2 : Disj xs (k2 :: qs) := disj_cons_iff.mp hd
            have := removeAt_lookup_disj (k2 :: qs) child child2 xs hr hd2
            simp [lookup, assoc_setChild_self, ha, this]
          · simp [lookup, assoc_setChild_ne cs k x _ (fun hh => hxk hh)]

theorem removeAt_parent : ∀ (q : FsPath) (fs fs' : Node) (k : String)
    (cs : List (String × Node)), lookup fs q = some (Node.dir cs) →
    removeAt fs (q ++ [k]) = some fs' →
    lookup fs' q = some (Node.dir (eraseChild cs k))
  | [], fs, fs', k, cs, hq, h => by
    rw [lookup] at hq
    cases hq
    rw [List.nil_append, removeAt] at h
    split at h
    · exact absurd h (by simp)
    · cases h
      rw [lookup]
  | k0 :: qs, Node.file _, fs', k, cs, hq, h => by simp [lookup] at hq
  | k0 :: qs, Node.dir cs0, fs', k, cs, hq, h => by
    rw [lookup] at hq
    cases ha : assoc cs0 k0 with
    | none => rw [ha] at hq; simp at hq
    | some child =>
      rw [ha] at hq
      simp only at hq
      rw [List.cons_append, removeAt_cons_of_ne_nil cs0 k0 (qs ++ [k]) (by simp)] at h
      rw [ha] at h
      simp only at h
      split at h
      · exact absurd h (by simp)
      · rename_i child2 hr
        cases h
        have := removeAt_parent qs child child2 k cs hq hr
        simp [lookup, assoc_setChild_self, this]

/-! Well-formedness and the sub-tree relation. -/

theorem childrenWF_mem : ∀ {cs : List (String × Node)}, childrenWF cs = true →
    ∀ {c : String × Node}, c ∈ cs → nodeWF c.2 = true
  | [], _, _, hm => by cases hm
  | c0 :: rest, h, c, hm => by
    rw [childrenWF, Bool.and_eq_true] at h
    rcases List.mem_cons.mp hm with rfl | hm2
    · exact h.1
    · exact childrenWF_mem h.2 hm2

theorem nodeWF_dir_nodup {cs : List (String × Node)}
    (h : nodeWF (Node.dir cs) = true) : (cs.map Prod.fst).Nodup := by
  rw [nodeWF, Bool.and_eq_true] at h
  exact by simpa using h.1

theorem nodeWF_dir_children {cs : List (String × Node)}
    (h : nodeWF (Node.dir cs) = true) : childrenWF cs = true := by
  rw [nodeWF, Bool.and_eq_true] at h
  exact h.2

theorem nodeWF_lookup : ∀ (p : FsPath) (fs t : Node), nodeWF fs = true →
    lookup fs p = some t → nodeWF t = true
  | [], fs, t, hwf, hp => by
    rw [lookup] at hp
    cases hp
    exact hwf
  | k :: ps, Node.file _, t, hwf, hp => by simp [lookup] at hp
  | k :: ps, Node.dir cs, t, hwf, hp => by
    rw [lookup] at hp
    cases ha : assoc cs k with
    | none => rw [ha] at hp; simp at hp
    | some child =>
      rw [ha] at hp
      simp only at hp
      have hc : nodeWF child = true :=
        childrenWF_mem (nodeWF_dir_children hwf) (mem_of_assoc_some ha)
      exact nodeWF_lookup ps child t hc hp

theorem subtreeChildren_of_forall : ∀ {cs cs' : List (String × Node)},
    (∀ c ∈ cs, ∃ t', assoc cs' c.1 = some t' ∧ subtreeLeB c.2 t' = true) →
    subtreeChildren cs cs' = true
  | [], _, _ => by rw [subtreeChildren]
  | c :: rest, cs', h => by
    rw [subtreeChildren, Bool.and_eq_true]
    obtain ⟨t', ha, hs⟩ := h c (List.mem_cons_self c rest)
    constructor
    · rw [ha]
      exact hs
    · exact subtreeChildren_of_forall (fun c2 hm => h c2 (List.mem_cons_of_mem c hm))

/-! Non-interference of the copy: every path disjoint from the destination
subtrees written by the copy resolves identically before and after,
whether the copy succeeded or failed. -/

theorem copy_lookup_disj (fuel : Nat) :
    (∀ fs src dst r fs', copy_dir_all fuel fs src dst = (r, fs') →
      ∀ p, Disj p dst → lookup fs' p = lookup fs p) ∧
    (∀ fs src dst names r fs', copyChildren fuel fs src dst names = (r, fs') →
      ∀ p, (∀ n ∈ names, Disj p (dst ++ [n])) → lookup fs' p = lookup fs p) ∧
    (∀ fs src dst name r fs', copyChild fuel fs src dst name = (r, fs') →
      ∀ p, Disj p (dst ++ [name]) → lookup fs' p = lookup fs p) := by
  induction fuel with
  | zero =>
    refine ⟨?_, ?_, ?_⟩
    · intro fs src dst r fs' h p _
      rw [copy_dir_all] at h
      cases h
      rfl
    · intro fs src dst names r fs' h p _
      cases names with
      | nil => rw [copyChildren] at h; cases h; rfl
      | cons a l => rw [copyChildren] at h; cases h; rfl
    · intro fs src dst name r fs' h p _
      rw [copyChild] at h
      cases h
      rfl
  | succ n ih =>
    refine ⟨?_, ?_, ?_⟩
    · intro fs src dst r fs' h p hd
      rw [copy_dir_all] at h
      split at h
      · cases h; rfl
      · rename_i fs1 hcd
        split at h
        · cases h
          exact createDirAll_lookup_disj dst fs fs' p hcd hd
        · rename_i names hrd
          have h1 := ih.2.1 fs1 src dst names r fs' h p
            (fun n _ => hd.append_right [n])
          rw [h1]
          exact createDirAll_lookup_disj dst fs fs1 p hcd hd
    · intro fs src dst names r fs' h p hd
      cases names with
      | nil =>
        rw [copyChildren] at h
        cases h
        rfl
      | cons name rest =>
        rw [copyChildren] at h
        split at h
        · rename_i e fs2 hcc
          cases h
          exact ih.2.2 fs src dst name _ fs' hcc p
            (hd name (List.mem_cons_self name rest))
        · rename_i u fs2 hcc
          have h1 := ih.2.1 fs2 src dst rest r fs' h p
            (fun nn hm => hd nn (List.mem_cons_of_mem name hm))
          rw [h1]
          exact ih.2.2 fs src dst name _ fs2 hcc p
            (hd name (List.mem_cons_self name rest))
    · intro fs src dst name r fs' h p hd
      rw [copyChild] at h
      split at h
      · exact ih.1 fs (src ++ [name]) (dst ++ [name]) r fs' h p hd
      · split at h
        · cases h
          rfl
        · rename_i fs2 hcf
          cases h
          rw [copyFile] at hcf
          split at hcf
          · rename_i c hsrc
            exact writeFile_lookup_disj (dst ++ [name]) fs _ c p hcf hd
          · exact absurd hcf (by simp)

/-! The copy never removes anything: every path that resolves before a copy
still resolves after it (even after a failed copy — partially copied trees
are not cleaned up), and directories stay directories. -/

theorem copy_preserves_lookup (fuel : Nat) :
    (∀ fs src dst r fs', copy_dir_all fuel fs src dst = (r, fs') →
      ∀ p t, lookup fs p = some t → ∃ t', lookup fs' p = some t' ∧
        (∀ cs0, t = Node.dir cs0 → ∃ cs1, t' = Node.dir cs1)) ∧
    (∀ fs src dst names r fs', copyChildren fuel fs src dst names = (r, fs') →
      ∀ p t, lookup fs p = some t → ∃ t', lookup fs' p = some t' ∧
        (∀ cs0, t = Node.dir cs0 → ∃ cs1, t' = Node.dir cs1)) ∧
    (∀ fs src dst name r fs', copyChild fuel fs src dst name = (r, fs') →
      ∀ p t, lookup fs p = some t → ∃ t', lookup fs' p = some t' ∧
        (∀ cs0, t = Node.dir cs0 → ∃ cs1, t' = Node.dir cs1)) := by
  induction fuel with
  | zero =>
    refine ⟨?_, ?_, ?_⟩
    · intro fs src dst r fs' h p t hp
      rw [copy_dir_all] at h
      cases h
      exact ⟨t, hp, fun cs0 hh => ⟨cs0, hh ▸ rfl⟩⟩
    · intro fs src dst names r fs' h p t hp
      cases names with
      | nil =>
        rw [copyChildren] at h
        cases h
        exact ⟨t, hp, fun cs0 hh => ⟨cs0, hh ▸ rfl⟩⟩
      | cons a l =>
        rw [copyChildren] at h
        cases h
        exact ⟨t, hp, fun cs0 hh => ⟨cs0, hh ▸ rfl⟩⟩
    · intro fs src dst name r fs' h p t hp
      rw [copyChild] at h
      cases h
      exact ⟨t, hp, fun cs0 hh => ⟨cs0, hh ▸ rfl⟩⟩
  | succ n ih =>
    refine ⟨?_, ?_, ?_⟩
    · intro fs src dst r fs' h p t hp
      rw [copy_dir_all] at h
      split at h
      · cases h
        exact ⟨t, hp, fun cs0 hh => ⟨cs0, hh ▸ rfl⟩⟩
      · rename_i fs1 hcd
        split at h
        · cases h
          exact createDirAll_preserves_lookup dst fs _ hcd p t hp
        · rename_i names hrd
          obtain ⟨t1, ht1, hd1⟩ := createDirAll_preserves_lookup dst fs fs1 hcd p t hp
          obtain ⟨t2, ht2, hd2⟩ := ih.2.1 fs1 src dst names r fs' h p t1 ht1
          refine ⟨t2, ht2, fun cs0 hh => ?_⟩
          obtain ⟨cs1, hh1⟩ := hd1 cs0 hh
          exact hd2 cs1 hh1
    · intro fs src dst names r fs' h p t hp
      cases names with
      | nil =>
        rw [copyChildren] at h
        cases h
        exact ⟨t, hp, fun cs0 hh => ⟨cs0, hh ▸ rfl⟩⟩
      | cons name rest =>
        rw [copyChildren] at h
        split at h
        · rename_i e fs2 hcc
          cases h
          exact ih.2.2 fs src dst name _ _ hcc p t hp
        · rename_i u fs2 hcc
          obtain ⟨t1, ht1, hd1⟩ := ih.2.2 fs src dst name _ fs2 hcc p t hp
          obtain ⟨t2, ht2, hd2⟩ := ih.2.1 fs2 src dst rest r fs' h p t1 ht1
          refine ⟨t2, ht2, fun cs0 hh => ?_⟩
          obtain ⟨cs1, hh1⟩ := hd1 cs0 hh
          exact hd2 cs1 hh1
    · intro fs src dst name r fs' h p t hp
      rw [copyChild] at h
      split at h
      · exact ih.1 fs (src ++ [name]) (dst ++ [name]) r fs' h p t hp
      · split at h
        · cases h
          exact ⟨t, hp, fun cs0 hh => ⟨cs0, hh ▸ rfl⟩⟩
        · rename_i fs2 hcf
          cases h
          rw [copyFile] at hcf
          split at hcf
          · rename_i c hsrc
            exact writeFile_preserves_lookup (dst ++ [name]) fs _ c hcf p t hp
          · exact absurd hcf (by simp)

/-! Correctness of a successful copy with disjoint, well-formed source: the
whole source tree appears under the destination. -/

theorem copy_correct (fuel : Nat) :
    (∀ fs src dst u fs', copy_dir_all fuel fs src dst = (Except.ok u, fs') →
      Disj src dst → ∀ cs, lookup fs src = some (Node.dir cs) →
      nodeWF (Node.dir cs) = true →
      ∃ cs', lookup fs' dst = some (Node.dir cs') ∧ subtreeChildren cs cs' = true) ∧
    (∀ fs src dst names u fs', copyChildren fuel fs src dst names = (Except.ok u, fs') →
      Disj src dst → names.Nodup →
      ∀ name ∈ names, ∀ t, lookup fs (src ++ [name]) = some t → nodeWF t = true →
      ∃ t', lookup fs' (dst ++ [name]) = some t' ∧ subtreeLeB t t' = true) ∧
    (∀ fs src dst name u fs', copyChild fuel fs src dst name = (Except.ok u, fs') →
      Disj src dst → ∀ t, lookup fs (src ++ [name]) = some t → nodeWF t = true →
      ∃ t', lookup fs' (dst ++ [name]) = some t' ∧ subtreeLeB t t' = true) := by
  induction fuel with
  | zero =>
    refine ⟨?_, ?_, ?_⟩
    · intro fs src dst u fs' h
      rw [copy_dir_all] at h
      exact absurd h (by simp)
    · intro fs src dst names u fs' h _ _ name hname
      cases names with
      | nil => cases hname
      | cons a l =>
        rw [copyChildren] at h
        exact absurd h (by simp)
    · intro fs src dst name u fs' h
      rw [copyChild] at h
      exact absurd h (by simp)
  | succ n ih =>
    refine ⟨?_, ?_, ?_⟩
    · intro fs src dst u fs' h hd cs hsrc hwf
      rw [copy_dir_all] at h
      split at h
      · exact absurd h (by simp)
      · rename_i fs1 hcd
        split at h
        · exact absurd h (by simp)
        · rename_i names hrd
          have hsrc1 : lookup fs1 src = some (Node.dir cs) := by
            rw [createDirAll_lookup_disj dst fs fs1 src hcd hd]
            exact hsrc
          have hnames : names = cs.map Prod.fst := by
            rw [readDir, hsrc1] at hrd
            exact (Option.some.injEq _ _ ▸ hrd.symm :)
          obtain ⟨cs1, hdst1⟩ := createDirAll_isDir dst fs fs1 hcd
          obtain ⟨tdst, htdst, hdir⟩ := (copy_preserves_lookup n).2.1 fs1 src dst names
            _ fs' h dst (Node.dir cs1) hdst1
          obtain ⟨cs', hcs'⟩ := hdir cs1 rfl
          subst hcs'
          refine ⟨cs', htdst, ?_⟩
          apply subtreeChildren_of_forall
          intro c hc
          have hmem : c.1 ∈ names := by
            rw [hnames]
            exact List.mem_map.mpr ⟨c, hc, rfl⟩
          have hassoc : assoc cs c.1 = some c.2 :=
            assoc_of_mem_nodup (nodeWF_dir_nodup hwf) (by simpa using hc)
          have hlc : lookup fs1 (src ++ [c.1]) = some c.2 := by
            rw [lookup_append_single fs1 src c.1 cs hsrc1]
            exact hassoc
          have hwfc : nodeWF c.2 = true :=
            childrenWF_mem (nodeWF_dir_children hwf) hc
          have hnd : names.Nodup := by
            rw [hnames]
            exact nodeWF_dir_nodup hwf
          obtain ⟨t', ht', hsub⟩ := ih.2.1 fs1 src dst names u fs' h hd hnd c.1 hmem
            c.2 hlc hwfc
          refine ⟨t', ?_, hsub⟩
          rw [lookup_append_single fs' dst c.1 cs' htdst] at ht'
          exact ht'
    · intro fs src dst names u fs' h hd hnd name hname t ht hwft
      cases names with
      | nil => cases hname
      | cons name0 rest =>
        rw [copyChildren] at h
        split at h
        · exact absurd h (by simp)
        · rename_i u0 fs2 hcc
          rcases List.mem_cons.mp hname with rfl | hname2
          · obtain ⟨t', ht', hsub⟩ := ih.2.2 fs src dst name u0 fs2 hcc hd t ht hwft
            refine ⟨t', ?_, hsub⟩
            rw [(copy_lookup_disj n).2.1 fs2 src dst rest (Except.ok u) fs' h (dst ++ [name]) ?_]
            · exact ht'
            · intro nn hm
              have hne : name ≠ nn := by
                intro hh
                rw [List.nodup_cons] at hnd
                exact hnd.1 (hh ▸ hm)
              exact disj_sibling hne
          · have hne : name0 ≠ name := by
              intro hh
              rw [List.nodup_cons] at hnd
              exact hnd.1 (hh ▸ hname2)
            have ht2 : lookup fs2 (src ++ [name]) = some t := by
              rw [(copy_lookup_disj n).2.2 fs src dst name0 (Except.ok u0) fs2 hcc (src ++ [name])
                (hd.append [name] [name0])]
              exact ht
            exact ih.2.1 fs2 src dst rest u fs' h hd
              (List.nodup_cons.mp hnd).2 name hname2 t ht2 hwft
    · intro fs src dst name u fs' h hd t ht hwft
      rw [copyChild] at h
      cases t with
      | dir cs =>
        rw [if_pos (by rw [isDir, ht])] at h
        obtain ⟨cs', htdst, hsub⟩ := ih.1 fs (src ++ [name]) (dst ++ [name]) u fs' h
          (hd.append [name] [name]) cs ht hwft
        exact ⟨Node.dir cs', htdst, by rw [subtreeLeB]; exact hsub⟩
      | file c =>
        rw [if_neg (by rw [isDir, ht]; simp)] at h
        rw [copyFile, ht] at h
        split at h
        · exact absurd h (by simp)
        · rename_i fs2 hw
          cases h
          refine ⟨Node.file c, ?_, by simp [subtreeLeB]⟩
          exact writeFile_lookup_self (dst ++ [name]) fs _ c hw

/-- Destructuring a successful `copyFile`. -/
theorem copyFile_some (fs fs' : Node) (src dst : FsPath)
    (h : copyFile fs src dst = some fs') :
    ∃ c, lookup fs src = some (Node.file c) ∧ writeFile fs dst c = some fs' := by
  rw [copyFile] at h
  split at h
  · rename_i c hl
    exact ⟨c, hl, h⟩
  · exact absurd h (by simp)

/-! Structure of ancestors of the copy destination: the whole copy changes
the children of any ancestor directory of the destination only through a
`setChild` at the child on the destination's path. -/

theorem copy_ancestor_setChild (fuel : Nat) :
    (∀ fs src dst r fs', copy_dir_all fuel fs src dst = (r, fs') →
      ∀ q k cs0, (q ++ [k]) <+: dst → lookup fs q = some (Node.dir cs0) →
      ∃ cs1, lookup fs' q = some (Node.dir cs1) ∧
        (cs1 = cs0 ∨ ∃ v', cs1 = setChild cs0 k v')) ∧
    (∀ fs src dst names r fs', copyChildren fuel fs src dst names = (r, fs') →
      ∀ q k cs0, (q ++ [k]) <+: dst → lookup fs q = some (Node.dir cs0) →
      ∃ cs1, lookup fs' q = some (Node.dir cs1) ∧
        (cs1 = cs0 ∨ ∃ v', cs1 = setChild cs0 k v')) ∧
    (∀ fs src dst name r fs', copyChild fuel fs src dst name = (r, fs') →
      ∀ q k cs0, (q ++ [k]) <+: (dst ++ [name]) → lookup fs q = some (Node.dir cs0) →
      ∃ cs1, lookup fs' q = some (Node.dir cs1) ∧
        (cs1 = cs0 ∨ ∃ v', cs1 = setChild cs0 k v')) := by
  induction fuel with
  | zero =>
    refine ⟨?_, ?_, ?_⟩
    · intro fs src dst r fs' h q k cs0 hpre hq
      rw [copy_dir_all] at h
      cases h
      exact ⟨cs0, hq, Or.inl rfl⟩
    · intro fs src dst names r fs' h q k cs0 hpre hq
      cases names with
      | nil => rw [copyChildren] at h; cases h; exact ⟨cs0, hq, Or.inl rfl⟩
      | cons a l => rw [copyChildren] at h; cases h; exact ⟨cs0, hq, Or.inl rfl⟩
    · intro fs src dst name r fs' h q k cs0 hpre hq
      rw [copyChild] at h
      cases h
      exact ⟨cs0, hq, Or.inl rfl⟩
  | succ n ih =>
    refine ⟨?_, ?_, ?_⟩
    · intro fs src dst r fs' h q k cs0 hpre hq
      rw [copy_dir_all] at h
      split at h
      · cases h
        exact ⟨cs0, hq, Or.inl rfl⟩
      · rename_i fs1 hcd
        obtain ⟨v1, hq1⟩ := createDirAll_ancestor_setChild q fs fs1 dst k hcd hpre cs0 hq
        split at h
        · cases h
          exact ⟨setChild cs0 k v1, hq1, Or.inr ⟨v1, rfl⟩⟩
        · rename_i names hrd
          obtain ⟨cs1, hq2, hd2⟩ := ih.2.1 fs1 src dst names r fs' h q k
            (setChild cs0 k v1) hpre hq1
          refine ⟨cs1, hq2, Or.inr ?_⟩
          rcases hd2 with rfl | ⟨v2, rfl⟩
          · exact ⟨v1, rfl⟩
          · exact ⟨v2, setChild_setChild cs0 k v1 v2⟩
    · intro fs src dst names r fs' h q k cs0 hpre hq
      cases names with
      | nil =>
        rw [copyChildren] at h
        cases h
        exact ⟨cs0, hq, Or.inl rfl⟩
      | cons name rest =>
        rw [copyChildren] at h
        have hpre2 : (q ++ [k]) <+: (dst ++ [name]) :=
          hpre.trans (List.prefix_append dst [name])
        split at h
        · rename_i e fs2 hcc
          cases h
          exact ih.2.2 fs src dst name _ fs' hcc q k cs0 hpre2 hq
        · rename_i u fs2 hcc
          obtain ⟨cs1, hq1, hd1⟩ := ih.2.2 fs src dst name _ fs2 hcc q k cs0 hpre2 hq
          obtain ⟨cs2, hq2, hd2⟩ := ih.2.1 fs2 src dst rest r fs' h q k cs1 hpre hq1
          refine ⟨cs2, hq2, ?_⟩
          rcases hd1 with rfl | ⟨v1, rfl⟩
          · exact hd2
          · refine Or.inr ?_
            rcases hd2 with rfl | ⟨v2, rfl⟩
            · exact ⟨v1, rfl⟩
            · exact ⟨v2, setChild_setChild cs0 k v1 v2⟩
    · intro fs src dst name r fs' h q k cs0 hpre hq
      rw [copyChild] at h
      split at h
      · exact ih.1 fs (src ++ [name]) (dst ++ [name]) r fs' h q k cs0 hpre hq
      · split at h
        · cases h
          exact ⟨cs0, hq, Or.inl rfl⟩
        · rename_i fs2 hcf
          cases h
          obtain ⟨c, hsrc, hw⟩ := copyFile_some fs _ _ _ hcf
          obtain ⟨v', hv'⟩ := writeFile_ancestor_setChild q fs _ (dst ++ [name])
            k c hw hpre cs0 hq
          exact ⟨setChild cs0 k v', hv', Or.inr ⟨v', rfl⟩⟩

/-! Exactness of the copy into a fresh destination: copying a well-formed
source tree to a destination that does not yet exist reproduces the source
tree on the nose (same children, same order, same contents). -/

theorem copy_exact (fuel : Nat) :
    (∀ fs src dst u fs', copy_dir_all fuel fs src dst = (Except.ok u, fs') →
      Disj src dst → ∀ cs, lookup fs src = some (Node.dir cs) →
      nodeWF (Node.dir cs) = true → lookup fs dst = none →
      lookup fs' dst = some (Node.dir cs)) ∧
    (∀ fs src dst names u fs', copyChildren fuel fs src dst names = (Except.ok u, fs') →
      Disj src dst → ∀ cs1 cs0, names = cs1.map Prod.fst →
      (cs1.map Prod.fst).Nodup →
      (∀ kv ∈ cs1, lookup fs (src ++ [kv.1]) = some kv.2 ∧ nodeWF kv.2 = true) →
      lookup fs dst = some (Node.dir cs0) →
      (∀ kv ∈ cs1, assoc cs0 kv.1 = none) →
      lookup fs' dst = some (Node.dir (cs0 ++ cs1))) ∧
    (∀ fs src dst name u fs', copyChild fuel fs src dst name = (Except.ok u, fs') →
      Disj src dst → ∀ t, lookup fs (src ++ [name]) = some t → nodeWF t = true →
      ∀ cs0, lookup fs dst = some (Node.dir cs0) → assoc cs0 name = none →
      lookup fs' dst = some (Node.dir (cs0 ++ [(name, t)]))) := by
  induction fuel with
  | zero =>
    refine ⟨?_, ?_, ?_⟩
    · intro fs src dst u fs' h
      rw [copy_dir_all] at h
      exact absurd h (by simp)
    · intro fs src dst names u fs' h _ cs1 cs0 hnames _ _ hdst _
      cases cs1 with
      | nil =>
        rw [hnames, List.map_nil, copyChildren] at h
        cases h
        rw [List.append_nil]
        exact hdst
      | cons kv cs1' =>
        rw [hnames, List.map_cons, copyChildren] at h
        exact absurd h (by simp)
    · intro fs src dst name u fs' h
      rw [copyChild] at h
      exact absurd h (by simp)
  | succ n ih =>
    refine ⟨?_, ?_, ?_⟩
    · intro fs src dst u fs' h hd cs hsrc hwf hnone
      rw [copy_dir_all] at h
      split at h
      · exact absurd h (by simp)
      · rename_i fs1 hcd
        split at h
        · exact absurd h (by simp)
        · rename_i names hrd
          have hdst1 : lookup fs1 dst = some (Node.dir []) :=
            createDirAll_fresh dst fs fs1 hcd hnone
          have hsrc1 : lookup fs1 src = some (Node.dir cs) := by
            rw [createDirAll_lookup_disj dst fs fs1 src hcd hd]
            exact hsrc
          have hnames : names = cs.map Prod.fst := by
            rw [readDir, hsrc1] at hrd
            exact (Option.some.injEq _ _ ▸ hrd.symm :)
          have hres := ih.2.1 fs1 src dst names u fs' h hd cs [] hnames
            (nodeWF_dir_nodup hwf)
            (fun kv hkv => ⟨by
                rw [lookup_append_single fs1 src kv.1 cs hsrc1]
                exact assoc_of_mem_nodup (nodeWF_dir_nodup hwf) (by simpa using hkv),
              childrenWF_mem (nodeWF_dir_children hwf) hkv⟩)
            hdst1 (fun kv _ => rfl)
          rw [List.nil_append] at hres
          exact hres
    · intro fs src dst names u fs' h hd cs1 cs0 hnames hnodup hkvs hdst hfresh
      cases cs1 with
      | nil =>
        rw [hnames, List.map_nil, copyChildren] at h
        cases h
        rw [List.append_nil]
        exact hdst
      | cons kv cs1' =>
        rw [hnames, List.map_cons, copyChildren] at h
        split at h
        · exact absurd h (by simp)
        · rename_i u0 fs2 hcc
          have hstep := ih.2.2 fs src dst kv.1 u0 fs2 hcc hd kv.2
            (hkvs kv (List.mem_cons_self kv cs1')).1
            (hkvs kv (List.mem_cons_self kv cs1')).2 cs0 hdst
            (hfresh kv (List.mem_cons_self kv cs1'))
          have hrest := ih.2.1 fs2 src dst (cs1'.map Prod.fst) u fs' h hd cs1'
            (cs0 ++ [(kv.1, kv.2)]) rfl
            (by
              rw [List.map_cons, List.nodup_cons] at hnodup
              exact hnodup.2)
            (fun kv' hkv' => by
              refine ⟨?_, (hkvs kv' (List.mem_cons_of_mem kv hkv')).2⟩
              rw [(copy_lookup_disj n).2.2 fs src dst kv.1 (Except.ok u0) fs2 hcc
                (src ++ [kv'.1]) (hd.append [kv'.1] [kv.1])]
              exact (hkvs kv' (List.mem_cons_of_mem kv hkv')).1)
            (by rw [Prod.mk.eta]; exact hstep)
            (fun kv' hkv' => by
              rw [assoc_append_of_none cs0 [(kv.1, kv.2)] kv'.1
                (hfresh kv' (List.mem_cons_of_mem kv hkv'))]
              have hne : ¬ kv.1 = kv'.1 := by
                intro hh
                rw [List.map_cons, List.nodup_cons] at hnodup
                exact hnodup.1 (hh ▸ List.mem_map.mpr ⟨kv', hkv', rfl⟩)
              simp [assoc, hne])
          rw [hrest, List.append_assoc]
          rfl
    · intro fs src dst name u fs' h hd t ht hwft cs0 hdst hfresh
      rw [copyChild] at h
      cases t with
      | dir cs2 =>
        rw [if_pos (by rw [isDir, ht])] at h
        have hfreshdst : lookup fs (dst ++ [name]) = none := by
          rw [lookup_append_single fs dst name cs0 hdst]
          exact hfresh
        have hval := ih.1 fs (src ++ [name]) (dst ++ [name]) u fs' h
          (hd.append [name] [name]) cs2 ht hwft hfreshdst
        obtain ⟨cs1, hq, hd1⟩ := (copy_ancestor_setChild n).1 fs (src ++ [name])
          (dst ++ [name]) (Except.ok u) fs' h dst name cs0 List.prefix_rfl hdst
        rcases hd1 with rfl | ⟨v', rfl⟩
        · rw [lookup_append_single fs' dst name cs1 hq, hfresh] at hval
          cases hval
        · rw [lookup_append_single fs' dst name _ hq, assoc_setChild_self] at hval
          cases hval
          rw [setChild_append cs0 name _ hfresh] at hq
          exact hq
      | file c =>
        rw [if_neg (by rw [isDir, ht]; simp)] at h
        split at h
        · exact absurd h (by simp)
        · rename_i fs2 hcf
          cases h
          obtain ⟨c2, hsrc, hw⟩ := copyFile_some fs _ _ _ hcf
          rw [ht] at hsrc
          cases hsrc
          obtain ⟨v', hq⟩ := writeFile_ancestor_setChild dst fs _ (dst ++ [name])
            name c hw List.prefix_rfl cs0 hdst
          have hself := writeFile_lookup_self (dst ++ [name]) fs _ c hw
          rw [lookup_append_single _ dst name _ hq, assoc_setChild_self] at hself
          cases hself
          rw [setChild_append cs0 name _ hfresh] at hq
          exact hq

/-! Properties of one iteration of the `move_data` loop. -/

theorem eraseChild_eq_filter : ∀ (cs : List (String × Node)) (k : String),
    eraseChild cs k = cs.filter (fun c => !(decide (c.1 = k)))
  | [], k => by rw [eraseChild, List.filter_nil]
  | c :: rest, k => by
    rw [eraseChild, List.filter_cons]
    by_cases hc : c.1 = k
    · simp [hc, eraseChild_eq_filter rest k]
    · simp [hc, eraseChild_eq_filter rest k]

/-- Destructuring a successful `removeDirAll`. -/
theorem removeDirAll_some (fs fs' : Node) (p : FsPath)
    (h : removeDirAll fs p = some fs') :
    removeAt fs p = some fs' ∧ ∃ cs, lookup fs p = some (Node.dir cs) := by
  rw [removeDirAll] at h
  split at h
  · rename_i cs hl
    exact ⟨h, cs, hl⟩
  · exact absurd h (by simp)

/-- Destructuring a successful `removeFile`. -/
theorem removeFile_some (fs fs' : Node) (p : FsPath)
    (h : removeFile fs p = some fs') :
    removeAt fs p = some fs' ∧ ∃ c, lookup fs p = some (Node.file c) := by
  rw [removeFile] at h
  split at h
  · rename_i c hl
    exact ⟨h, c, hl⟩
  · exact absurd h (by simp)

/-- `moveEntry` only modifies the tree at the entry's source and destination
paths; any path disjoint from both is untouched, whether the entry
succeeded or failed. -/
theorem moveEntry_lookup_disj (fuel : Nat) (fs : Node) (old_path new_path : FsPath)
    (name : String) (r : Except String Unit) (fs2 : Node)
    (h : moveEntry fuel fs old_path new_path name = (r, fs2)) (p : FsPath)
    (hdn : Disj p (new_path ++ [name])) (hdo : Disj p (old_path ++ [name])) :
    lookup fs2 p = lookup fs p := by
  rw [moveEntry] at h
  split at h
  · -- directory entry
    split at h
    · rename_i e fs1 hcp
      cases h
      exact (copy_lookup_disj fuel).1 fs _ _ _ fs2 hcp p hdn
    · rename_i u fs1 hcp
      split at h
      · cases h
        exact (copy_lookup_disj fuel).1 fs _ _ _ fs2 hcp p hdn
      · rename_i fs3 hrm
        cases h
        obtain ⟨hra, cs1, hl⟩ := removeDirAll_some fs1 fs2 _ hrm
        rw [removeAt_lookup_disj (old_path ++ [name]) fs1 fs2 p hra hdo]
        exact (copy_lookup_disj fuel).1 fs _ _ _ fs1 hcp p hdn
  · -- file entry
    split at h
    · cases h
      rfl
    · rename_i fs1 hcf
      obtain ⟨c, hsrc, hw⟩ := copyFile_some fs fs1 _ _ hcf
      split at h
      · cases h
        exact writeFile_lookup_disj (new_path ++ [name]) fs fs2 c p hw hdn
      · rename_i fs3 hrm
        cases h
        obtain ⟨hra, c2, hl⟩ := removeFile_some fs1 fs2 _ hrm
        rw [removeAt_lookup_disj (old_path ++ [name]) fs1 fs2 p hra hdo]
        exact writeFile_lookup_disj (new_path ++ [name]) fs fs1 c p hw hdn

/-- A successful `moveEntry` removes exactly the processed entry from the
old directory's children. -/
theorem moveEntry_old_children (fuel : Nat) (fs : Node) (old_path new_path : FsPath)
    (name : String) (u : Unit) (fs2 : Node)
    (h : moveEntry fuel fs old_path new_path name = (Except.ok u, fs2))
    (hd : Disj old_path new_path) (cs : List (String × Node))
    (hcs : lookup fs old_path = some (Node.dir cs)) :
    lookup fs2 old_path = some (Node.dir (eraseChild cs name)) := by
  have hdisj : Disj old_path (new_path ++ [name]) := hd.append_right [name]
  rw [moveEntry] at h
  split at h
  · split at h
    · exact absurd h (by simp)
    · rename_i u1 fs1 hcp
      split at h
      · exact absurd h (by simp)
      · rename_i fs3 hrm
        cases h
        obtain ⟨hra, cs1, hl⟩ := removeDirAll_some fs1 fs2 _ hrm
        have hcs1 : lookup fs1 old_path = some (Node.dir cs) := by
          rw [(copy_lookup_disj fuel).1 fs _ _ _ fs1 hcp old_path hdisj]
          exact hcs
        exact removeAt_parent old_path fs1 fs2 name cs hcs1 hra
  · split at h
    · exact absurd h (by simp)
    · rename_i fs1 hcf
      obtain ⟨c, hsrc, hw⟩ := copyFile_some fs fs1 _ _ hcf
      split at h
      · exact absurd h (by simp)
      · rename_i fs3 hrm
        cases h
        obtain ⟨hra, c2, hl⟩ := removeFile_some fs1 fs2 _ hrm
        have hcs1 : lookup fs1 old_path = some (Node.dir cs) := by
          rw [writeFile_lookup_disj (new_path ++ [name]) fs fs1 c old_path hw hdisj]
          exact hcs
        exact removeAt_parent old_path fs1 fs2 name cs hcs1 hra

/-- A successful `moveEntry` with disjoint roots moves the entry: the source
path is gone and the destination path holds (at least) the entry's whole
original tree. -/
theorem moveEntry_moved (fuel : Nat) (fs : Node) (old_path new_path : FsPath)
    (name : String) (u : Unit) (fs2 : Node)
    (h : moveEntry fuel fs old_path new_path name = (Except.ok u, fs2))
    (hd : Disj old_path new_path) (t : Node)
    (ht : lookup fs (old_path ++ [name]) = some t) (hwf : nodeWF t = true) :
    lookup fs2 (old_path ++ [name]) = none ∧
    ∃ t', lookup fs2 (new_path ++ [name]) = some t' ∧ subtreeLeB t t' = true := by
  have hdd : Disj (old_path ++ [name]) (new_path ++ [name]) := hd.append [name] [name]
  rw [moveEntry] at h
  split at h
  · rename_i hisdir
    split at h
    · exact absurd h (by simp)
    · rename_i u1 fs1 hcp
      split at h
      · exact absurd h (by simp)
      · rename_i fs3 hrm
        cases h
        obtain ⟨hra, cs1, hl⟩ := removeDirAll_some fs1 fs2 _ hrm
        cases t with
        | file c => rw [isDir, ht] at hisdir; simp at hisdir
        | dir cs =>
          obtain ⟨cs', hdst, hsub⟩ := (copy_correct fuel).1 fs _ _ u1 fs1 hcp hdd cs ht hwf
          refine ⟨removeAt_lookup_self _ fs1 fs2 hra, Node.dir cs', ?_, ?_⟩
          · rw [removeAt_lookup_disj (old_path ++ [name]) fs1 fs2 _ hra hdd.symm]
            exact hdst
          · rw [subtreeLeB]
            exact hsub
  · rename_i hisdir
    split at h
    · exact absurd h (by simp)
    · rename_i fs1 hcf
      obtain ⟨c, hsrc, hw⟩ := copyFile_some fs fs1 _ _ hcf
      split at h
      · exact absurd h (by simp)
      · rename_i fs3 hrm
        cases h
        obtain ⟨hra, c2, hl⟩ := removeFile_some fs1 fs2 _ hrm
        rw [hsrc] at ht
        cases ht
        refine ⟨removeAt_lookup_self _ fs1 fs2 hra, Node.file c, ?_, by simp [subtreeLeB]⟩
        rw [removeAt_lookup_disj (old_path ++ [name]) fs1 fs2 _ hra hdd.symm]
        exact writeFile_lookup_self (new_path ++ [name]) fs fs1 c hw

/-- `moveEntry` preserves the existence (and directory-ness) of every path
disjoint from the removed source entry. -/
theorem moveEntry_preserves (fuel : Nat) (fs : Node) (old_path new_path : FsPath)
    (name : String) (r : Except String Unit) (fs2 : Node)
    (h : moveEntry fuel fs old_path new_path name = (r, fs2)) (p : FsPath)
    (hdo : Disj p (old_path ++ [name])) (t : Node) (hp : lookup fs p = some t) :
    ∃ t', lookup fs2 p = some t' ∧
      (∀ cs0, t = Node.dir cs0 → ∃ cs1, t' = Node.dir cs1) := by
  rw [moveEntry] at h
  split at h
  · split at h
    · rename_i e fs1 hcp
      cases h
      exact (copy_preserves_lookup fuel).1 fs _ _ _ fs2 hcp p t hp
    · rename_i u1 fs1 hcp
      split at h
      · cases h
        exact (copy_preserves_lookup fuel).1 fs _ _ _ fs2 hcp p t hp
      · rename_i fs3 hrm
        cases h
        obtain ⟨hra, cs1, hl⟩ := removeDirAll_some fs1 fs2 _ hrm
        obtain ⟨t1, ht1, hd1⟩ := (copy_preserves_lookup fuel).1 fs _ _ _ fs1 hcp p t hp
        refine ⟨t1, ?_, hd1⟩
        rw [removeAt_lookup_disj (old_path ++ [name]) fs1 fs2 p hra hdo]
        exact ht1
  · split at h
    · cases h
      exact ⟨t, hp, fun cs0 hh => ⟨cs0, hh ▸ rfl⟩⟩
    · rename_i fs1 hcf
      obtain ⟨c, hsrc, hw⟩ := copyFile_some fs fs1 _ _ hcf
      split at h
      · cases h
        exact writeFile_preserves_lookup (new_path ++ [name]) fs fs2 c hw p t hp
      · rename_i fs3 hrm
        cases h
        obtain ⟨hra, c2, hl⟩ := removeFile_some fs1 fs2 _ hrm
        obtain ⟨t1, ht1, hd1⟩ := writeFile_preserves_lookup (new_path ++ [name])
          fs fs1 c hw p t hp
        refine ⟨t1, ?_, hd1⟩
        rw [removeAt_lookup_disj (old_path ++ [name]) fs1 fs2 p hra hdo]
        exact ht1

/-! Properties of the `move_data` entry loop. -/

/-- The loop over a concatenation runs the first part, then (on success)
the second from the reached state. -/
theorem processEntries_append (fuel : Nat) (old_path new_path : FsPath) :
    ∀ (l1 l2 : List String) (fs : Node),
    processEntries fuel fs old_path new_path (l1 ++ l2) =
      (match processEntries fuel fs old_path new_path l1 with
       | (Except.ok _, fs1) => processEntries fuel fs1 old_path new_path l2
       | (Except.error e, fs1) => (Except.error e, fs1))
  | [], l2, fs => rfl
  | name :: rest, l2, fs => by
    rw [List.cons_append, processEntries, processEntries]
    by_cases hc : name = "config.json"
    · rw [if_pos hc, if_pos hc]
      exact processEntries_append fuel old_path new_path rest l2 fs
    · rw [if_neg hc, if_neg hc]
      cases hme : moveEntry fuel fs old_path new_path name with
      | mk r fs2 =>
        cases r with
        | error e => rfl
        | ok u => exact processEntries_append fuel old_path new_path rest l2 fs2

/-- Entries named `config.json` are skipped, so the loop only depends on
the other names. -/
theorem processEntries_filter_config (fuel : Nat) (old_path new_path : FsPath) :
    ∀ (names : List String) (fs : Node),
    processEntries fuel fs old_path new_path
        (names.filter (fun n => !(decide (n = "config.json")))) =
      processEntries fuel fs old_path new_path names
  | [], fs => by rw [List.filter_nil]
  | name :: rest, fs => by
    rw [List.filter_cons]
    by_cases hc : name = "config.json"
    · rw [if_neg (by simp [hc])]
      conv_rhs => rw [processEntries]
      rw [if_pos hc]
      exact processEntries_filter_config fuel old_path new_path rest fs
    · rw [if_pos (by simp [hc])]
      conv_lhs => rw [processEntries]
      conv_rhs => rw [processEntries]
      rw [if_neg hc, if_neg hc]
      cases hme : moveEntry fuel fs old_path new_path name with
      | mk r fs2 =>
        cases r with
        | error e => rfl
        | ok u => exact processEntries_filter_config fuel old_path new_path rest fs2

/-- The loop only modifies the tree under the processed entries' source and
destination paths. -/
theorem processEntries_lookup_disj (fuel : Nat) (old_path new_path : FsPath) :
    ∀ (names : List String) (fs : Node) (r : Except String Unit) (fs' : Node),
    processEntries fuel fs old_path new_path names = (r, fs') →
    ∀ p, (∀ n ∈ names, n ≠ "config.json" →
      Disj p (old_path ++ [n]) ∧ Disj p (new_path ++ [n])) →
    lookup fs' p = lookup fs p
  | [], fs, r, fs', h, p, hdp => by
    rw [processEntries] at h
    cases h
    rfl
  | name :: rest, fs, r, fs', h, p, hdp => by
    rw [processEntries] at h
    by_cases hc : name = "config.json"
    · rw [if_pos hc] at h
      exact processEntries_lookup_disj fuel old_path new_path rest fs r fs' h p
        (fun n hm hn => hdp n (List.mem_cons_of_mem name hm) hn)
    · rw [if_neg hc] at h
      have hdme := hdp name (List.mem_cons_self name rest) hc
      split at h
      · rename_i e fs2 hme
        cases h
        exact moveEntry_lookup_disj fuel fs old_path new_path name _ fs' hme p
          hdme.2 hdme.1
      · rename_i u fs2 hme
        rw [processEntries_lookup_disj fuel old_path new_path rest fs2 r fs' h p
          (fun n hm hn => hdp n (List.mem_cons_of_mem name hm) hn)]
        exact moveEntry_lookup_disj fuel fs old_path new_path name _ fs2 hme p
          hdme.2 hdme.1

/-- The loop preserves the existence and directory-ness of every path
disjoint from the removed entries. -/
theorem processEntries_preserves (fuel : Nat) (old_path new_path : FsPath) :
    ∀ (names : List String) (fs : Node) (r : Except String Unit) (fs' : Node),
    processEntries fuel fs old_path new_path names = (r, fs') →
    ∀ p, (∀ n ∈ names, n ≠ "config.json" → Disj p (old_path ++ [n])) →
    ∀ t, lookup fs p = some t →
    ∃ t', lookup fs' p = some t' ∧
      (∀ cs0, t = Node.dir cs0 → ∃ cs1, t' = Node.dir cs1)
  | [], fs, r, fs', h, p, hdp, t, hp => by
    rw [processEntries] at h
    cases h
    exact ⟨t, hp, fun cs0 hh => ⟨cs0, hh ▸ rfl⟩⟩
  | name :: rest, fs, r, fs', h, p, hdp, t, hp => by
    rw [processEntries] at h
    by_cases hc : name = "config.json"
    · rw [if_pos hc] at h
      exact processEntries_preserves fuel old_path new_path rest fs r fs' h p
        (fun n hm hn => hdp n (List.mem_cons_of_mem name hm) hn) t hp
    · rw [if_neg hc] at h
      have hdme := hdp name (List.mem_cons_self name rest) hc
      split at h
      · rename_i e fs2 hme
        cases h
        exact moveEntry_preserves fuel fs old_path new_path name _ fs' hme p hdme t hp
      · rename_i u fs2 hme
        obtain ⟨t1, ht1, hd1⟩ :=
          moveEntry_preserves fuel fs old_path new_path name _ fs2 hme p hdme t hp
        obtain ⟨t2, ht2, hd2⟩ := processEntries_preserves fuel old_path new_path rest
          fs2 r fs' h p (fun n hm hn => hdp n (List.mem_cons_of_mem name hm) hn) t1 ht1
        refine ⟨t2, ht2, fun cs0 hh => ?_⟩
        obtain ⟨cs1, hh1⟩ := hd1 cs0 hh
        exact hd2 cs1 hh1

/-- After a successful loop over `names` the old directory keeps exactly
its `config.json` entries and the entries whose names were not in the
snapshot. -/
theorem processEntries_old_children (fuel : Nat) (old_path new_path : FsPath)
    (hd : Disj old_path new_path) :
    ∀ (names : List String) (fs : Node) (u : Unit) (fs' : Node),
    processEntries fuel fs old_path new_path names = (Except.ok u, fs') →
    ∀ cs, lookup fs old_path = some (Node.dir cs) →
    lookup fs' old_path = some (Node.dir (cs.filter
      (fun c => decide (c.1 = "config.json") || !(decide (c.1 ∈ names)))))
  | [], fs, u, fs', h, cs, hcs => by
    rw [processEntries] at h
    cases h
    rw [List.filter_eq_self.mpr (fun c _ => by simp)]
    exact hcs
  | name :: rest, fs, u, fs', h, cs, hcs => by
    rw [processEntries] at h
    by_cases hc : name = "config.json"
    · rw [if_pos hc] at h
      have ih := processEntries_old_children fuel old_path new_path hd rest fs u fs' h cs hcs
      have hfc : cs.filter (fun c => decide (c.1 = "config.json") || !(decide (c.1 ∈ rest))) =
          cs.filter (fun c => decide (c.1 = "config.json") || !(decide (c.1 ∈ name :: rest))) := by
        apply List.filter_congr
        intro c _
        by_cases h1 : c.1 = "config.json"
        · simp [h1]
        · simp [h1, hc, List.mem_cons]
      rw [hfc] at ih
      exact ih
    · rw [if_neg hc] at h
      split at h
      · exact absurd h (by simp)
      · rename_i u0 fs2 hme
        have hcs2 := moveEntry_old_children fuel fs old_path new_path name u0 fs2 hme hd cs hcs
        have ih := processEntries_old_children fuel old_path new_path hd rest fs2 u fs' h
          (eraseChild cs name) hcs2
        rw [eraseChild_eq_filter, List.filter_filter] at ih
        have hfc : cs.filter (fun c =>
              (decide (c.1 = "config.json") || !(decide (c.1 ∈ rest))) && !(decide (c.1 = name))) =
            cs.filter (fun c => decide (c.1 = "config.json") || !(decide (c.1 ∈ name :: rest))) := by
          apply List.filter_congr
          intro c _
          by_cases h1 : c.1 = name
          · have h2 : ¬ c.1 = "config.json" := by rw [h1]; exact hc
            simp [h1, h2, hc]
          · by_cases h2 : c.1 = "config.json"
            · simp [h1, h2, Ne.symm hc]
            · simp [h1, h2, List.mem_cons]
        rw [hfc] at ih
        exact ih

/-- After a successful loop with disjoint well-formed roots, every
non-config entry of the snapshot has been moved: gone from the old root and
fully present under the new root. -/
theorem processEntries_moved (fuel : Nat) (old_path new_path : FsPath)
    (hd : Disj old_path new_path) :
    ∀ (names : List String) (fs : Node) (u : Unit) (fs' : Node),
    processEntries fuel fs old_path new_path names = (Except.ok u, fs') →
    names.Nodup →
    ∀ name ∈ names, name ≠ "config.json" →
    ∀ t, lookup fs (old_path ++ [name]) = some t → nodeWF t = true →
    lookup fs' (old_path ++ [name]) = none ∧
    ∃ t', lookup fs' (new_path ++ [name]) = some t' ∧ subtreeLeB t t' = true
  | [], fs, u, fs', h, hnd, name, hname, hc, t, ht, hwf => by cases hname
  | name0 :: rest, fs, u, fs', h, hnd, name, hname, hc, t, ht, hwf => by
    rw [processEntries] at h
    by_cases hc0 : name0 = "config.json"
    · rw [if_pos hc0] at h
      rcases List.mem_cons.mp hname with rfl | hname2
      · exact absurd hc0 hc
      · exact processEntries_moved fuel old_path new_path hd rest fs u fs' h
          (List.nodup_cons.mp hnd).2 name hname2 hc t ht hwf
    · rw [if_neg hc0] at h
      split at h
      · exact absurd h (by simp)
      · rename_i u0 fs2 hme
        rcases List.mem_cons.mp hname with rfl | hname2
        · obtain ⟨hgone, t', ht', hsub⟩ :=
            moveEntry_moved fuel fs old_path new_path name u0 fs2 hme hd t ht hwf
          have hsib : ∀ n ∈ rest, n ≠ "config.json" →
              Disj (old_path ++ [name]) (old_path ++ [n]) ∧
              Disj (old_path ++ [name]) (new_path ++ [n]) := by
            intro n hm hn
            have hne : name ≠ n := fun hh => (List.nodup_cons.mp hnd).1 (hh ▸ hm)
            exact ⟨disj_sibling hne, hd.append [name] [n]⟩
          have hsib2 : ∀ n ∈ rest, n ≠ "config.json" →
              Disj (new_path ++ [name]) (old_path ++ [n]) ∧
              Disj (new_path ++ [name]) (new_path ++ [n]) := by
            intro n hm hn
            have hne : name ≠ n := fun hh => (List.nodup_cons.mp hnd).1 (hh ▸ hm)
            exact ⟨(hd.append [n] [name]).symm, disj_sibling hne⟩
          constructor
          · rw [processEntries_lookup_disj fuel old_path new_path rest fs2 _ fs' h
              (old_path ++ [name]) hsib]
            exact hgone
          · refine ⟨t', ?_, hsub⟩
            rw [processEntries_lookup_disj fuel old_path new_path rest fs2 _ fs' h
              (new_path ++ [name]) hsib2]
            exact ht'
        · have hne : name0 ≠ name := fun hh => (List.nodup_cons.mp hnd).1 (hh ▸ hname2)
          have ht2 : lookup fs2 (old_path ++ [name]) = some t := by
            rw [moveEntry_lookup_disj fuel fs old_path new_path name0 _ fs2 hme
              (old_path ++ [name]) (hd.append [name] [name0]) (disj_sibling hne.symm)]
            exact ht
          exact processEntries_moved fuel old_path new_path hd rest fs2 u fs' h
            (List.nodup_cons.mp hnd).2 name hname2 hc t ht2 hwf

/-! List auxiliaries for relating a partially processed snapshot to the
remaining entries. -/

theorem map_fst_filter_key (cs : List (String × Node)) (p : String → Bool) :
    (cs.filter (fun c => p c.1)).map Prod.fst = (cs.map Prod.fst).filter p := by
  induction cs with
  | nil => rfl
  | cons c rest ih =>
    rw [List.filter_cons, List.map_cons, List.filter_cons]
    by_cases hp : p c.1 = true
    · rw [if_pos hp, if_pos hp, List.map_cons, ih]
    · rw [if_neg hp, if_neg hp, ih]

theorem filter_not_mem_append {a b : List String}
    (hdisj : ∀ x ∈ b, ¬ x ∈ a) :
    (a ++ b).filter (fun n => !(decide (n ∈ a))) = b := by
  rw [List.filter_append]
  have h1 : a.filter (fun n => !(decide (n ∈ a))) = [] :=
    List.filter_eq_nil_iff.mpr (fun x hx => by simp [hx])
  have h2 : b.filter (fun n => !(decide (n ∈ a))) = b :=
    List.filter_eq_self.mpr (fun x hx => by simp [hdisj x hx])
  rw [h1, h2, List.nil_append]

theorem filter_not_mem_take (l : List String) (k : Nat) (h : l.Nodup) :
    l.filter (fun n => !(decide (n ∈ l.take k))) = l.drop k := by
  have hd : List.Disjoint (l.take k) (l.drop k) := List.disjoint_take_drop h le_rfl
  have haux := filter_not_mem_append (a := l.take k) (b := l.drop k)
    (fun x hx hmem => hd hmem hx)
  rw [List.take_append_drop] at haux
  exact haux

/-- Relocation retry convergence, for roots neither of which is a prefix of
the other: a run interrupted after `k` fully processed entries, re-invoked
with the same arguments, reaches exactly the state of an uninterrupted
successful run. -/
theorem move_data_retry_converges (fuel : Nat) (fs : Node)
    (old_path new_path : FsPath) (k : Nat) (fs' fsk : Node)
    (hpre1 : ¬ old_path <+: new_path) (hpre2 : ¬ new_path <+: old_path)
    (hnd : ∀ cs, lookup fs old_path = some (Node.dir cs) → (cs.map Prod.fst).Nodup)
    (h1 : move_data fuel fs old_path new_path = (Except.ok (), fs'))
    (h2 : movePartial fuel fs old_path new_path k = (Except.ok (), fsk)) :
    move_data fuel fsk old_path new_path = (Except.ok (), fs') := by
  have hdisj : Disj old_path new_path := ⟨hpre1, hpre2⟩
  have hprecond : ¬ (old_path = new_path ∨ old_path = [] ∨ new_path = []) := by
    push_neg
    exact ⟨hdisj.ne, hdisj.ne_nil_left, hdisj.ne_nil_right⟩
  rw [move_data, if_neg hprecond] at h1
  rw [movePartial, if_neg hprecond] at h2
  by_cases hex : pathExists fs old_path = false
  · rw [if_pos hex] at h1 h2
    cases h1
    cases h2
    rw [move_data, if_neg hprecond, if_pos hex]
  · rw [if_neg hex] at h1 h2
    split at h1
    · exact absurd h1 (by simp)
    · rename_i fs1 hens
      rw [hens] at h2
      simp only at h2
      split at h1
      · exact absurd h1 (by simp)
      · rename_i names hrd
        rw [hrd] at h2
        simp only at h2
        obtain ⟨cs, hlk, rfl⟩ : ∃ cs, lookup fs1 old_path = some (Node.dir cs) ∧
            names = cs.map Prod.fst := by
          rw [readDir] at hrd
          split at hrd
          · rename_i cs hlk
            exact ⟨cs, hlk, by cases hrd; rfl⟩
          · exact absurd hrd (by simp)
        have hEnsOld : lookup fs1 old_path = lookup fs old_path := by
          by_cases hpn : pathExists fs new_path
          · rw [if_pos hpn] at hens
            cases hens
            rfl
          · rw [if_neg hpn] at hens
            exact createDirAll_lookup_disj new_path fs fs1 old_path hens hdisj
        have hEnsNew : ∃ tN, lookup fs1 new_path = some tN := by
          by_cases hpn : pathExists fs new_path
          · rw [if_pos hpn] at hens
            cases hens
            rw [pathExists] at hpn
            exact Option.isSome_iff_exists.mp hpn
          · rw [if_neg hpn] at hens
            obtain ⟨cs', hcs'⟩ := createDirAll_isDir new_path fs fs1 hens
            exact ⟨Node.dir cs', hcs'⟩
        have hnds : (cs.map Prod.fst).Nodup := hnd cs (by rw [← hEnsOld]; exact hlk)
        -- split the full run at position k
        have hsplit := processEntries_append fuel old_path new_path
          ((cs.map Prod.fst).take k) ((cs.map Prod.fst).drop k) fs1
        rw [List.take_append_drop] at hsplit
        rw [hsplit, h2] at h1
        simp only at h1
        -- h1 now runs the remaining entries from the partial state
        have hchar := processEntries_old_children fuel old_path new_path hdisj
          ((cs.map Prod.fst).take k) fs1 () fsk h2 cs hlk
        have hpe : pathExists fsk old_path = true := by
          rw [pathExists, hchar]
          rfl
        obtain ⟨tN, htN⟩ := hEnsNew
        obtain ⟨tN', htN', _⟩ := processEntries_preserves fuel old_path new_path
          ((cs.map Prod.fst).take k) fs1 _ fsk h2 new_path
          (fun n _ _ => hdisj.symm.append_right [n]) tN htN
        have hpnew2 : pathExists fsk new_path = true := by
          rw [pathExists, htN']
          rfl
        have hrd2 : readDir fsk old_path = some ((cs.filter
            (fun c => decide (c.1 = "config.json") ||
              !(decide (c.1 ∈ (cs.map Prod.fst).take k)))).map Prod.fst) := by
          rw [readDir, hchar]
        rw [move_data, if_neg hprecond, if_neg (by simp [hpe]), if_pos hpnew2]
        simp only
        rw [hrd2]
        simp only
        rw [map_fst_filter_key cs (fun n => decide (n = "config.json") ||
          !(decide (n ∈ (cs.map Prod.fst).take k)))]
        rw [← processEntries_filter_config fuel old_path new_path
          ((cs.map Prod.fst).filter (fun n => decide (n = "config.json") ||
            !(decide (n ∈ (cs.map Prod.fst).take k)))) fsk]
        rw [← processEntries_filter_config fuel old_path new_path
          ((cs.map Prod.fst).drop k) fsk] at h1
        have hlist : ((cs.map Prod.fst).filter (fun n => decide (n = "config.json") ||
            !(decide (n ∈ (cs.map Prod.fst).take k)))).filter
              (fun n => !(decide (n = "config.json"))) =
            ((cs.map Prod.fst).drop k).filter (fun n => !(decide (n = "config.json"))) := by
          rw [← filter_not_mem_take (cs.map Prod.fst) k hnds]
          rw [List.filter_filter, List.filter_filter]
          apply List.filter_congr
          intro n _
          by_cases hn1 : n = "config.json"
          · simp [hn1]
          · simp [hn1]
        rw [hlist]
        exact h1

/-- Relocation excludes the configuration file, for disjoint well-formed
roots: `old_root/config.json` is untouched, `new_root/config.json` is not
created by the move, and every other direct entry is moved (absent from the
old root, its whole tree present under the new root). -/
theorem move_data_excludes_config (fuel : Nat) (fs : Node)
    (old_path new_path : FsPath) (fs' : Node) (tc : Node)
    (hpre1 : ¬ old_path <+: new_path) (hpre2 : ¬ new_path <+: old_path)
    (hwf : nodeWF fs = true)
    (hcfg : lookup fs (old_path ++ ["config.json"]) = some tc)
    (h : move_data fuel fs old_path new_path = (Except.ok (), fs')) :
    lookup fs' (old_path ++ ["config.json"]) = some tc ∧
    lookup fs' (new_path ++ ["config.json"]) = lookup fs (new_path ++ ["config.json"]) ∧
    ∀ name, name ≠ "config.json" → ∀ t, lookup fs (old_path ++ [name]) = some t →
      lookup fs' (old_path ++ [name]) = none ∧
      ∃ t', lookup fs' (new_path ++ [name]) = some t' ∧ subtreeLeB t t' = true := by
  have hdisj : Disj old_path new_path := ⟨hpre1, hpre2⟩
  have hprecond : ¬ (old_path = new_path ∨ old_path = [] ∨ new_path = []) := by
    push_neg
    exact ⟨hdisj.ne, hdisj.ne_nil_left, hdisj.ne_nil_right⟩
  obtain ⟨cs0, hlk0⟩ : ∃ cs0, lookup fs old_path = some (Node.dir cs0) := by
    rw [lookup_append] at hcfg
    cases hl : lookup fs old_path with
    | none => rw [hl] at hcfg; simp at hcfg
    | some t0 =>
      cases t0 with
      | file c => rw [hl] at hcfg; simp [lookup] at hcfg
      | dir cs0 => exact ⟨cs0, rfl⟩
  have hex : pathExists fs old_path = true := by rw [pathExists, hlk0]; rfl
  rw [move_data, if_neg hprecond, if_neg (by simp [hex])] at h
  split at h
  · exact absurd h (by simp)
  · rename_i fs1 hens
    split at h
    · exact absurd h (by simp)
    · rename_i names hrd
      obtain ⟨cs, hlk, rfl⟩ : ∃ cs, lookup fs1 old_path = some (Node.dir cs) ∧
          names = cs.map Prod.fst := by
        rw [readDir] at hrd
        split at hrd
        · rename_i cs hlk
          exact ⟨cs, hlk, by cases hrd; rfl⟩
        · exact absurd hrd (by simp)
      have hEnsDisj : ∀ p, Disj p new_path → lookup fs1 p = lookup fs p := by
        intro p hdp
        by_cases hpn : pathExists fs new_path
        · rw [if_pos hpn] at hens
          cases hens
          rfl
        · rw [if_neg hpn] at hens
          exact createDirAll_lookup_disj new_path fs fs1 p hens hdp
      have hcseq : cs = cs0 := by
        have := hEnsDisj old_path hdisj
        rw [hlk, hlk0] at this
        cases this
        rfl
      subst hcseq
      have hwf0 : nodeWF (Node.dir cs) = true := nodeWF_lookup old_path fs _ hwf hlk0
      have hnds : (cs.map Prod.fst).Nodup := nodeWF_dir_nodup hwf0
      refine ⟨?_, ?_, ?_⟩
      · -- config.json untouched
        have hdp : ∀ n ∈ cs.map Prod.fst, n ≠ "config.json" →
            Disj (old_path ++ ["config.json"]) (old_path ++ [n]) ∧
            Disj (old_path ++ ["config.json"]) (new_path ++ [n]) := by
          intro n _ hn
          exact ⟨disj_sibling (fun hh => hn hh.symm), hdisj.append ["config.json"] [n]⟩
        rw [processEntries_lookup_disj fuel old_path new_path (cs.map Prod.fst) fs1 _ fs' h
          (old_path ++ ["config.json"]) hdp]
        rw [hEnsDisj (old_path ++ ["config.json"]) (hdisj.append_left ["config.json"])]
        exact hcfg
      · -- config.json not created under the new root
        have hdp : ∀ n ∈ cs.map Prod.fst, n ≠ "config.json" →
            Disj (new_path ++ ["config.json"]) (old_path ++ [n]) ∧
            Disj (new_path ++ ["config.json"]) (new_path ++ [n]) := by
          intro n _ hn
          exact ⟨(hdisj.append [n] ["config.json"]).symm,
            disj_sibling (fun hh => hn hh.symm)⟩
        rw [processEntries_lookup_disj fuel old_path new_path (cs.map Prod.fst) fs1 _ fs' h
          (new_path ++ ["config.json"]) hdp]
        by_cases hpn : pathExists fs new_path
        · rw [if_pos hpn] at hens
          cases hens
          rfl
        · rw [if_neg hpn] at hens
          have hnew_none : lookup fs new_path = none := by
            rw [pathExists] at hpn
            cases hl : lookup fs new_path with
            | none => rfl
            | some t0 => rw [hl] at hpn; simp at hpn
          have h1 : lookup fs1 new_path = some (Node.dir []) :=
            createDirAll_fresh new_path fs fs1 hens hnew_none
          rw [lookup_append_single fs1 new_path "config.json" [] h1,
            lookup_append, hnew_none]
          rw [assoc]
          rfl
      · -- all other entries moved
        intro name hn t ht
        have ht1 : lookup fs1 (old_path ++ [name]) = some t := by
          rw [hEnsDisj (old_path ++ [name]) (hdisj.append_left [name])]
          exact ht
        have hmem : name ∈ cs.map Prod.fst := by
          rw [lookup_append_single fs1 old_path name cs hlk] at ht1
          exact assoc_mem_map_fst ht1
        have hwft : nodeWF t = true := nodeWF_lookup (old_path ++ [name]) fs t hwf ht
        exact processEntries_moved fuel old_path new_path hdisj (cs.map Prod.fst)
          fs1 () fs' h hnds name hmem hn t ht1 hwft

/-- Per-entry copy-then-delete semantics of the `move_data` loop, for
disjoint well-formed roots: the copy phase completes first, producing an
intermediate state in which the source tree is still intact and its whole
content already appears under the destination; only then is the source
removed, and the destination copy survives. -/
theorem moveEntry_copy_then_delete (fuel : Nat) (fs : Node)
    (old_path new_path : FsPath) (name : String) (u : Unit) (fs2 : Node)
    (hpre1 : ¬ old_path <+: new_path) (hpre2 : ¬ new_path <+: old_path)
    (hwf : nodeWF fs = true) (t : Node)
    (ht : lookup fs (old_path ++ [name]) = some t)
    (h : moveEntry fuel fs old_path new_path name = (Except.ok u, fs2)) :
    (∀ cs, t = Node.dir cs →
      ∃ fsm, copy_dir_all fuel fs (old_path ++ [name]) (new_path ++ [name]) =
          (Except.ok (), fsm) ∧
        lookup fsm (old_path ++ [name]) = some t ∧
        (∃ t', lookup fsm (new_path ++ [name]) = some t' ∧ subtreeLeB t t' = true) ∧
        removeDirAll fsm (old_path ++ [name]) = some fs2) ∧
    (∀ c, t = Node.file c →
      ∃ fsm, copyFile fs (old_path ++ [name]) (new_path ++ [name]) = some fsm ∧
        lookup fsm (old_path ++ [name]) = some t ∧
        lookup fsm (new_path ++ [name]) = some (Node.file c) ∧
        removeFile fsm (old_path ++ [name]) = some fs2) ∧
    lookup fs2 (old_path ++ [name]) = none ∧
    (∃ t', lookup fs2 (new_path ++ [name]) = some t' ∧ subtreeLeB t t' = true) ∧
    (lookup fs (new_path ++ [name]) = none →
      lookup fs2 (new_path ++ [name]) = some t) := by
  have hdisj : Disj old_path new_path := ⟨hpre1, hpre2⟩
  have hdd : Disj (old_path ++ [name]) (new_path ++ [name]) := hdisj.append [name] [name]
  have hwft : nodeWF t = true := nodeWF_lookup (old_path ++ [name]) fs t hwf ht
  have hmoved := moveEntry_moved fuel fs old_path new_path name u fs2 h hdisj t ht hwft
  refine ⟨?_, ?_, hmoved.1, hmoved.2, ?_⟩
  · intro cs hcs
    subst hcs
    rw [moveEntry] at h
    rw [if_pos (by rw [isDir, ht])] at h
    split at h
    · exact absurd h (by simp)
    · rename_i u1 fs1 hcp
      split at h
      · exact absurd h (by simp)
      · rename_i fs3 hrm
        cases h
        refine ⟨fs1, hcp, ?_, ?_, hrm⟩
        · rw [(copy_lookup_disj fuel).1 fs _ _ _ fs1 hcp (old_path ++ [name]) hdd]
          exact ht
        · obtain ⟨cs', hdst, hsub⟩ := (copy_correct fuel).1 fs _ _ u1 fs1 hcp hdd cs ht hwft
          exact ⟨Node.dir cs', hdst, by rw [subtreeLeB]; exact hsub⟩
  · intro c hc
    subst hc
    rw [moveEntry] at h
    rw [if_neg (by rw [isDir, ht]; simp)] at h
    split at h
    · exact absurd h (by simp)
    · rename_i fs1 hcf
      split at h
      · exact absurd h (by simp)
      · rename_i fs3 hrm
        cases h
        obtain ⟨c2, hsrc, hwr⟩ := copyFile_some fs fs1 _ _ hcf
        rw [ht] at hsrc
        cases hsrc
        refine ⟨fs1, hcf, ?_, ?_, hrm⟩
        · rw [writeFile_lookup_disj (new_path ++ [name]) fs fs1 c _ hwr hdd]
          exact ht
        · exact writeFile_lookup_self (new_path ++ [name]) fs fs1 c hwr
  · intro hnone
    rw [moveEntry] at h
    cases t with
    | dir cs =>
      rw [if_pos (by rw [isDir, ht])] at h
      split at h
      · exact absurd h (by simp)
      · rename_i u1 fs1 hcp
        split at h
        · exact absurd h (by simp)
        · rename_i fs3 hrm
          cases h
          have hx := (copy_exact fuel).1 fs (old_path ++ [name]) (new_path ++ [name])
            u1 fs1 hcp hdd cs ht hwft hnone
          obtain ⟨hra, _⟩ := removeDirAll_some fs1 _ _ hrm
          rw [removeAt_lookup_disj (old_path ++ [name]) fs1 _ (new_path ++ [name])
            hra hdd.symm]
          exact hx
    | file c =>
      rw [if_neg (by rw [isDir, ht]; simp)] at h
      split at h
      · exact absurd h (by simp)
      · rename_i fs1 hcf
        split at h
        · exact absurd h (by simp)
        · rename_i fs3 hrm
          cases h
          obtain ⟨c2, hsrc, hwr⟩ := copyFile_some fs _ _ _ hcf
          rw [ht] at hsrc
          cases hsrc
          obtain ⟨hra, _⟩ := removeFile_some _ _ _ hrm
          rw [removeAt_lookup_disj (old_path ++ [name]) _ _ (new_path ++ [name])
            hra hdd.symm]
          exact writeFile_lookup_self (new_path ++ [name]) fs _ c hwr

/-- A failure while copying a prefix of the children aborts the whole loop
with that failure and that state: the remaining children are not copied and
nothing is rolled back. -/
theorem copyChildren_error_append : ∀ (l1 : List String) (fuel : Nat) (fs : Node)
    (src dst : FsPath) (l2 : List String) (e : String) (fs1 : Node),
    copyChildren fuel fs src dst l1 = (Except.error e, fs1) →
    copyChildren fuel fs src dst (l1 ++ l2) = (Except.error e, fs1)
  | [], fuel, fs, src, dst, l2, e, fs1, h => by
    rw [copyChildren] at h
    exact absurd h (by simp)
  | name :: rest, 0, fs, src, dst, l2, e, fs1, h => by
    rw [copyChildren] at h
    cases h
    rfl
  | name :: rest, fuel + 1, fs, src, dst, l2, e, fs1, h => by
    rw [copyChildren] at h
    rw [List.cons_append, copyChildren]
    split at h
    · rename_i e0 fs2 hcc
      cases h
      rfl
    · rename_i u fs2 hcc
      exact copyChildren_error_append rest fuel fs2 src dst l2 e fs1 h

/-- Specification of the recursive copy helper: (a) it never deletes
anything, even when it fails partway (no cleanup of partial trees); (b) the
destination directory is created before any child is copied and still
exists in the final state whatever the outcome; (c) a successful copy with
disjoint roots reproduces the whole well-formed source tree under the
destination; (d) the first failing child aborts the loop, propagating that
failure and keeping the state it failed in, and an error in a prefix of the
children is the error of the whole loop. -/
theorem copy_dir_all_spec (fuel : Nat) (fs : Node) (src dst : FsPath) :
    (∀ r fs', copy_dir_all fuel fs src dst = (r, fs') →
      ∀ p t, lookup fs p = some t → ∃ t', lookup fs' p = some t') ∧
    (∀ fs1 r fs', createDirAll fs dst = some fs1 →
      copy_dir_all (fuel + 1) fs src dst = (r, fs') →
      ∃ cs', lookup fs' dst = some (Node.dir cs')) ∧
    (∀ u fs', copy_dir_all fuel fs src dst = (Except.ok u, fs') →
      Disj src dst → ∀ cs, lookup fs src = some (Node.dir cs) →
      nodeWF (Node.dir cs) = true →
      ∃ cs', lookup fs' dst = some (Node.dir cs') ∧ subtreeChildren cs cs' = true) ∧
    (∀ name rest e fs2, copyChild fuel fs src dst name = (Except.error e, fs2) →
      copyChildren (fuel + 1) fs src dst (name :: rest) = (Except.error e, fs2)) ∧
    (∀ l1 l2 e fs1, copyChildren fuel fs src dst l1 = (Except.error e, fs1) →
      copyChildren fuel fs src dst (l1 ++ l2) = (Except.error e, fs1)) := by
  refine ⟨?_, ?_, ?_, ?_, ?_⟩
  · intro r fs' h p t hp
    obtain ⟨t', ht', _⟩ := (copy_preserves_lookup fuel).1 fs src dst r fs' h p t hp
    exact ⟨t', ht'⟩
  · intro fs1 r fs' hcd h
    rw [copy_dir_all, hcd] at h
    simp only at h
    split at h
    · cases h
      exact createDirAll_isDir dst fs _ hcd
    · rename_i names hrd
      obtain ⟨cs1, hdst1⟩ := createDirAll_isDir dst fs fs1 hcd
      obtain ⟨t', ht', hdir⟩ := (copy_preserves_lookup fuel).2.1 fs1 src dst names
        r fs' h dst (Node.dir cs1) hdst1
      obtain ⟨cs', hcs'⟩ := hdir cs1 rfl
      exact ⟨cs', hcs' ▸ ht'⟩
  · intro u fs' h hd cs hsrc hwf
    exact (copy_correct fuel).1 fs src dst u fs' h hd cs hsrc hwf
  · intro name rest e fs2 hcc
    rw [copyChildren, hcc]
  · intro l1 l2 e fs1 h
    exact copyChildren_error_append l1 fuel fs src dst l2 e fs1 h

/-- Relocation no-op cases: identical paths, an empty path on either side,
and a missing source all succeed and leave the tree unchanged. -/
theorem move_data_noop (fuel : Nat) (fs : Node) (p x q y : FsPath) :
    move_data fuel fs p p = (Except.ok (), fs) ∧
    move_data fuel fs [] x = (Except.ok (), fs) ∧
    move_data fuel fs x [] = (Except.ok (), fs) ∧
    (lookup fs q = none → move_data fuel fs q y = (Except.ok (), fs)) := by
  refine ⟨?_, ?_, ?_, ?_⟩
  · rw [move_data, if_pos (Or.inl rfl)]
  · rw [move_data, if_pos (Or.inr (Or.inl rfl))]
  · rw [move_data, if_pos (Or.inr (Or.inr rfl))]
  · intro hq
    by_cases hcond : q = y ∨ q = [] ∨ y = []
    · rw [move_data, if_pos hcond]
    · rw [move_data, if_neg hcond, if_pos (by rw [pathExists, hq]; rfl)]

/-- Soft read of a todo detail: a missing `content.json` yields the
literal `"{}"`, and an existing regular file is returned verbatim. -/
theorem get_todo_detail_soft (fs : Node) (data_path : FsPath) (folder_name : String) :
    (lookup fs (data_path ++ [folder_name, "content.json"]) = none →
      get_todo_detail fs data_path folder_name = Except.ok "{}") ∧
    (∀ c, lookup fs (data_path ++ [folder_name, "content.json"]) = some (Node.file c) →
      get_todo_detail fs data_path folder_name = Except.ok c) := by
  constructor
  · intro hl
    rw [get_todo_detail, if_neg (by rw [pathExists, hl]; simp)]
  · intro c hl
    rw [get_todo_detail, if_pos (by rw [pathExists, hl]; rfl), readToString, hl]

/-- Soft read of the todo index: missing file yields the empty list, a
readable file yields the parsed list or the empty list when parsing fails;
none of these paths panics. -/
theorem get_todos_soft (fs : Node) (data_path : FsPath)
    (parse : String → Option (List TodoItem)) :
    (lookup fs (data_path ++ ["todos.json"]) = none →
      get_todos fs data_path parse = Outcome.ok []) ∧
    (∀ c l, lookup fs (data_path ++ ["todos.json"]) = some (Node.file c) →
      parse c = some l → get_todos fs data_path parse = Outcome.ok l) ∧
    (∀ c, lookup fs (data_path ++ ["todos.json"]) = some (Node.file c) →
      parse c = none → get_todos fs data_path parse = Outcome.ok []) := by
  refine ⟨?_, ?_, ?_⟩
  · intro hl
    rw [get_todos, if_neg (by rw [pathExists, hl]; simp)]
  · intro c l hl hp
    rw [get_todos, if_pos (by rw [pathExists, hl]; rfl), readToString, hl]
    simp [hp]
  · intro c hl hp
    rw [get_todos, if_pos (by rw [pathExists, hl]; rfl), readToString, hl]
    simp [hp]

/-- The config read never surfaces a failure: missing, unreadable and
unparsable files all yield the computed default (language `zh-CN`, theme
`light`, font `Arial` size 14, the fixed text colors, autostart off), and a
parsable file yields the parsed config. -/
theorem get_app_config_defaults (fs : Node) (config_dir : FsPath)
    (parse : String → Option AppConfig) (app_data_dir : String) :
    (lookup fs (config_dir ++ ["config.json"]) = none →
      get_app_config fs config_dir parse app_data_dir = default_config app_data_dir) ∧
    (∀ cs, lookup fs (config_dir ++ ["config.json"]) = some (Node.dir cs) →
      get_app_config fs config_dir parse app_data_dir = default_config app_data_dir) ∧
    (∀ c, lookup fs (config_dir ++ ["config.json"]) = some (Node.file c) →
      parse c = none →
      get_app_config fs config_dir parse app_data_dir = default_config app_data_dir) ∧
    (∀ c cfg, lookup fs (config_dir ++ ["config.json"]) = some (Node.file c) →
      parse c = some cfg →
      get_app_config fs config_dir parse app_data_dir = cfg) ∧
    (default_config app_data_dir).data_path = app_data_dir ∧
    (default_config app_data_dir).language = "zh-CN" ∧
    (default_config app_data_dir).theme = "light" ∧
    (default_config app_data_dir).font_family = "Arial" ∧
    (default_config app_data_dir).font_size = 14 ∧
    (default_config app_data_dir).text_color_light = "#333333" ∧
    (default_config app_data_dir).text_color_dark = "#e5e5e5" ∧
    (default_config app_data_dir).launch_at_login = false := by
  refine ⟨?_, ?_, ?_, ?_, rfl, rfl, rfl, rfl, rfl, rfl, rfl, rfl⟩
  · intro hl
    rw [get_app_config, if_pos (by rw [pathExists, hl]; simp)]
  · intro cs hl
    rw [get_app_config, if_neg (by rw [pathExists, hl]; simp), readToString, hl]
  · intro c hl hp
    rw [get_app_config, if_neg (by rw [pathExists, hl]; simp), readToString, hl]
    simp [hp]
  · intro c cfg hl hp
    rw [get_app_config, if_neg (by rw [pathExists, hl]; simp), readToString, hl]
    simp [hp]

/-- A successful `create_todo_folder` returns the generated name, and the
folder and its `assets/` subdirectory both exist afterwards; when the
folder name was fresh, `assets/` is empty. -/
theorem create_todo_folder_assets (fs : Node) (data_path : FsPath)
    (uuid u : String) (fs2 : Node)
    (h : create_todo_folder fs data_path uuid = (Except.ok u, fs2)) :
    u = uuid ∧
    (∃ cs, lookup fs2 (data_path ++ [uuid]) = some (Node.dir cs)) ∧
    (∃ cs, lookup fs2 (data_path ++ [uuid, "assets"]) = some (Node.dir cs)) ∧
    (lookup fs (data_path ++ [uuid]) = none →
      lookup fs2 (data_path ++ [uuid, "assets"]) = some (Node.dir [])) := by
  have happ : data_path ++ [uuid] ++ ["assets"] = data_path ++ [uuid, "assets"] := by
    rw [List.append_assoc]
    rfl
  rw [create_todo_folder] at h
  split at h
  · exact absurd h (by simp)
  · rename_i fs1 hc1
    split at h
    · exact absurd h (by simp)
    · rename_i fs3 hc2
      cases h
      rw [happ] at hc2
      refine ⟨rfl, ?_, ?_, ?_⟩
      · obtain ⟨cs1, hcs1⟩ := createDirAll_isDir (data_path ++ [uuid]) fs fs1 hc1
        obtain ⟨t', ht', hdir⟩ := createDirAll_preserves_lookup
          (data_path ++ [uuid, "assets"]) fs1 fs2 hc2 (data_path ++ [uuid])
          (Node.dir cs1) hcs1
        obtain ⟨cs2, hcs2⟩ := hdir cs1 rfl
        exact ⟨cs2, hcs2 ▸ ht'⟩
      · exact createDirAll_isDir (data_path ++ [uuid, "assets"]) fs1 fs2 hc2
      · intro hfresh
        have h1 : lookup fs1 (data_path ++ [uuid]) = some (Node.dir []) :=
          createDirAll_fresh (data_path ++ [uuid]) fs fs1 hc1 hfresh
        have h2 : lookup fs1 (data_path ++ [uuid, "assets"]) = none := by
          rw [← happ, lookup_append_single fs1 (data_path ++ [uuid]) "assets" [] h1]
          rw [assoc]
        exact createDirAll_fresh (data_path ++ [uuid, "assets"]) fs1 fs2 hc2 h2

/-- `save_todo_detail` requires the todo folder to exist already: when it
does not, the write fails with an error and the tree is unchanged —
unlike `save_todos` and `save_app_config`, which create their target
directory on demand and then succeed. -/
theorem save_todo_detail_requires_folder (fs : Node) (data_path : FsPath)
    (folder_name content : String)
    (hnf : ∀ cs, lookup fs (data_path ++ [folder_name]) ≠ some (Node.dir cs)) :
    save_todo_detail fs data_path folder_name content =
      (Except.error "write failed", fs) ∧
    (∀ c fs1, lookup fs data_path = none → createDirAll fs data_path = some fs1 →
      ∃ fs2, save_todos fs data_path (some c) = (Except.ok (), fs2)) ∧
    (∀ c fs1, lookup fs data_path = none → createDirAll fs data_path = some fs1 →
      ∃ fs2, save_app_config fs data_path (some c) = (Except.ok (), fs2)) := by
  have happ : data_path ++ [folder_name] ++ ["content.json"] =
      data_path ++ [folder_name, "content.json"] := by
    rw [List.append_assoc]
    rfl
  refine ⟨?_, ?_, ?_⟩
  · rw [save_todo_detail]
    cases hw : writeFile fs (data_path ++ [folder_name, "content.json"]) content with
    | none => rfl
    | some fs1 =>
      rw [← happ] at hw
      obtain ⟨cs, hcs⟩ := writeFile_parent_dir (data_path ++ [folder_name]) fs fs1
        "content.json" content hw
      exact absurd hcs (hnf cs)
  · intro c fs1 hmiss hcd
    rw [save_todos, if_neg (by rw [pathExists, hmiss]; simp), hcd]
    simp only
    have h1 : lookup fs1 data_path = some (Node.dir []) :=
      createDirAll_fresh data_path fs fs1 hcd hmiss
    obtain ⟨fs2, hw⟩ := writeFile_ok data_path fs1 "todos.json" c [] h1
      (fun cs2 => by rw [assoc]; simp)
    rw [hw]
    exact ⟨fs2, rfl⟩
  · intro c fs1 hmiss hcd
    rw [save_app_config, if_neg (by rw [pathExists, hmiss]; simp), hcd]
    simp only
    have h1 : lookup fs1 data_path = some (Node.dir []) :=
      createDirAll_fresh data_path fs fs1 hcd hmiss
    obtain ⟨fs2, hw⟩ := writeFile_ok data_path fs1 "config.json" c [] h1
      (fun cs2 => by rw [assoc]; simp)
    rw [hw]
    exact ⟨fs2, rfl⟩

/-! Counterexamples: behaviours of the code on overlapping roots and on
paths occupied by directories, refuting the corresponding claims as
stated. -/

/-- Moving `a/b` into its parent `a` succeeds, and re-running after a
partial run (one entry processed) also succeeds but reaches a different
final state: the retry does not converge to the uninterrupted run's state
when the roots overlap. -/
theorem move_data_retry_diverges_on_overlap :
    (move_data 20 overlapRetryTree ["a", "b"] ["a"]).1 = Except.ok () ∧
    (movePartial 20 overlapRetryTree ["a", "b"] ["a"] 1).1 = Except.ok () ∧
    (move_data 20 (movePartial 20 overlapRetryTree ["a", "b"] ["a"] 1).2
      ["a", "b"] ["a"]).1 = Except.ok () ∧
    lookup (move_data 20 overlapRetryTree ["a", "b"] ["a"]).2 ["a", "x"] = none ∧
    lookup (move_data 20 (movePartial 20 overlapRetryTree ["a", "b"] ["a"] 1).2
      ["a", "b"] ["a"]).2 ["a", "x"] = some (Node.file "1") ∧
    (move_data 20 (movePartial 20 overlapRetryTree ["a", "b"] ["a"] 1).2
      ["a", "b"] ["a"]).2 ≠ (move_data 20 overlapRetryTree ["a", "b"] ["a"]).2 := by
  refine ⟨rfl, rfl, rfl, rfl, rfl, ?_⟩
  intro heq
  have h4 : lookup (move_data 20 overlapRetryTree ["a", "b"] ["a"]).2 ["a", "x"] =
      none := rfl
  have h5 : lookup (move_data 20 (movePartial 20 overlapRetryTree ["a", "b"] ["a"] 1).2
      ["a", "b"] ["a"]).2 ["a", "x"] = some (Node.file "1") := rfl
  rw [heq, h4] at h5
  exact Option.noConfusion h5

/-- When the new root is the parent of the old root, a successful
`move_data` can overwrite `old_path/config.json` (a nested `config.json`
is copied over it), refuting the exclusion claim as stated. -/
theorem move_data_config_clobbered_on_overlap :
    lookup overlapConfigTree ["a", "b", "config.json"] = some (Node.file "orig") ∧
    (move_data 20 overlapConfigTree ["a", "b"] ["a"]).1 = Except.ok () ∧
    lookup (move_data 20 overlapConfigTree ["a", "b"] ["a"]).2
      ["a", "b", "config.json"] = some (Node.file "evil") :=
  ⟨rfl, rfl, rfl⟩

/-- With overlapping roots a successful `move_data` can destroy an entry's
tree: the delete phase removes content the copy phase had placed inside the
source, so the entry's tree is neither at the destination nor anywhere
else. -/
theorem move_data_entry_lost_on_overlap :
    lookup overlapLossTree ["n", "q", "q"] =
      some (Node.dir [("q", Node.dir [("f", Node.file "x")])]) ∧
    (move_data 20 overlapLossTree ["n", "q"] ["n"]).1 = Except.ok () ∧
    lookup (move_data 20 overlapLossTree ["n", "q"] ["n"]).2 ["n", "q"] =
      some (Node.dir []) ∧
    subtreeLeB (Node.dir [("q", Node.dir [("f", Node.file "x")])]) (Node.dir []) = false :=
  ⟨rfl, rfl, rfl, rfl⟩

/-- `get_todo_detail` does surface an error when `content.json` exists but
cannot be read as a file (here: it is a directory). -/
theorem get_todo_detail_errors_on_directory :
    get_todo_detail detailDirTree ["dp"] "f" = Except.error "Is a directory" :=
  rfl

/-- `get_todos` panics (the `.unwrap()` on `fs::read_to_string`) when
`todos.json` exists but cannot be read as a file (here: it is a
directory). -/
theorem get_todos_panics_on_directory :
    get_todos todosDirTree ["dp"] (fun _ => none) = Outcome.panic :=
  rfl

/-! Witnesses: the claim theorems instantiated at concrete trees. -/

/-- Witness for retry convergence on the demo tree, interrupted after two
entries. -/
theorem move_data_retry_converges_witness :
    move_data 20 (movePartial 20 demoTree ["o"] ["n"] 2).2 ["o"] ["n"] =
      (Except.ok (), (move_data 20 demoTree ["o"] ["n"]).2) :=
  move_data_retry_converges 20 demoTree ["o"] ["n"] 2
    (move_data 20 demoTree ["o"] ["n"]).2 (movePartial 20 demoTree ["o"] ["n"] 2).2
    (by decide) (by decide) (fun cs h => by cases h; decide) rfl rfl

/-- Witness for config exclusion on the demo tree. -/
theorem move_data_excludes_config_witness :
    lookup (move_data 20 demoTree ["o"] ["n"]).2 ["o", "config.json"] =
      some (Node.file "cfg") ∧
    lookup (move_data 20 demoTree ["o"] ["n"]).2 ["n", "config.json"] =
      lookup demoTree ["n", "config.json"] ∧
    (lookup (move_data 20 demoTree ["o"] ["n"]).2 ["o", "t1"] = none ∧
      ∃ t', lookup (move_data 20 demoTree ["o"] ["n"]).2 ["n", "t1"] = some t' ∧
        subtreeLeB (Node.dir [("content.json", Node.file "D"),
          ("assets", Node.dir [("img.png", Node.file "P")])]) t' = true) := by
  have h := move_data_excludes_config 20 demoTree ["o"] ["n"]
    (move_data 20 demoTree ["o"] ["n"]).2 (Node.file "cfg")
    (by decide) (by decide) rfl rfl rfl
  exact ⟨h.1, h.2.1, h.2.2 "t1" (by decide)
    (Node.dir [("content.json", Node.file "D"),
      ("assets", Node.dir [("img.png", Node.file "P")])]) rfl⟩

/-- Witness for copy-then-delete on the demo tree's directory entry `t1`. -/
theorem moveEntry_copy_then_delete_witness :
    (∃ fsm, copy_dir_all 20 demoTree ["o", "t1"] ["n", "t1"] = (Except.ok (), fsm) ∧
      lookup fsm ["o", "t1"] = some (Node.dir [("content.json", Node.file "D"),
        ("assets", Node.dir [("img.png", Node.file "P")])]) ∧
      (∃ t', lookup fsm ["n", "t1"] = some t' ∧
        subtreeLeB (Node.dir [("content.json", Node.file "D"),
          ("assets", Node.dir [("img.png", Node.file "P")])]) t' = true) ∧
      removeDirAll fsm ["o", "t1"] = some (moveEntry 20 demoTree ["o"] ["n"] "t1").2) ∧
    lookup (moveEntry 20 demoTree ["o"] ["n"] "t1").2 ["o", "t1"] = none ∧
    (∃ t', lookup (moveEntry 20 demoTree ["o"] ["n"] "t1").2 ["n", "t1"] = some t' ∧
      subtreeLeB (Node.dir [("content.json", Node.file "D"),
        ("assets", Node.dir [("img.png", Node.file "P")])]) t' = true) ∧
    lookup (moveEntry 20 demoTree ["o"] ["n"] "t1").2 ["n", "t1"] =
      some (Node.dir [("content.json", Node.file "D"),
        ("assets", Node.dir [("img.png", Node.file "P")])]) := by
  have h := moveEntry_copy_then_delete 20 demoTree ["o"] ["n"] "t1" ()
    (moveEntry 20 demoTree ["o"] ["n"] "t1").2 (by decide) (by decide) rfl
    (Node.dir [("content.json", Node.file "D"),
      ("assets", Node.dir [("img.png", Node.file "P")])]) rfl rfl
  exact ⟨h.1 _ rfl, h.2.2.1, h.2.2.2.1, h.2.2.2.2 rfl⟩

/-- Witness for the relocation no-op cases. -/
theorem move_data_noop_witness :
    move_data 5 demoTree ["o"] ["o"] = (Except.ok (), demoTree) ∧
    move_data 5 demoTree [] ["o"] = (Except.ok (), demoTree) ∧
    move_data 5 demoTree ["o"] [] = (Except.ok (), demoTree) ∧
    move_data 5 demoTree ["missing"] ["o"] = (Except.ok (), demoTree) :=
  ⟨(move_data_noop 5 demoTree ["o"] ["o"] ["missing"] ["o"]).1,
   (move_data_noop 5 demoTree ["o"] ["o"] ["missing"] ["o"]).2.1,
   (move_data_noop 5 demoTree ["o"] ["o"] ["missing"] ["o"]).2.2.1,
   (move_data_noop 5 demoTree ["o"] ["o"] ["missing"] ["o"]).2.2.2 rfl⟩

/-- Witness for the recursive copy helper's specification. -/
theorem copy_dir_all_spec_witness :
    (∃ t', lookup (copy_dir_all 20 copyDemoTree ["s"] ["d"]).2 ["s", "f"] = some t') ∧
    (∃ cs', lookup (copy_dir_all 21 copyDemoTree ["s"] ["d"]).2 ["d"] =
      some (Node.dir cs')) ∧
    (∃ cs', lookup (copy_dir_all 20 copyDemoTree ["s"] ["d"]).2 ["d"] =
      some (Node.dir cs') ∧
      subtreeChildren [("f", Node.file "1"), ("sub", Node.dir [("g", Node.file "2")])]
        cs' = true) ∧
    copyChildren 21 copyFailTree ["s"] ["d"] ["z", "a"] =
      (Except.error "failed to copy file", copyFailTree) ∧
    copyChildren 20 copyFailTree ["s"] ["d"] (["z"] ++ ["a"]) =
      (Except.error "failed to copy file", copyFailTree) := by
  refine ⟨?_, ?_, ?_, ?_, ?_⟩
  · exact (copy_dir_all_spec 20 copyDemoTree ["s"] ["d"]).1 _ _ rfl
      ["s", "f"] (Node.file "1") rfl
  · exact (copy_dir_all_spec 20 copyDemoTree ["s"] ["d"]).2.1 copyDemoTree _ _ rfl rfl
  · exact (copy_dir_all_spec 20 copyDemoTree ["s"] ["d"]).2.2.1 () _ rfl
      ⟨by decide, by decide⟩
      [("f", Node.file "1"), ("sub", Node.dir [("g", Node.file "2")])] rfl rfl
  · exact (copy_dir_all_spec 20 copyFailTree ["s"] ["d"]).2.2.2.1 "z" ["a"]
      "failed to copy file" copyFailTree rfl
  · exact (copy_dir_all_spec 20 copyFailTree ["s"] ["d"]).2.2.2.2 ["z"] ["a"]
      "failed to copy file" copyFailTree rfl

/-- Witness for the soft todo-detail read. -/
theorem get_todo_detail_soft_witness :
    get_todo_detail emptyTree ["dp"] "f" = Except.ok "{}" ∧
    get_todo_detail demoTree ["o"] "t1" = Except.ok "D" :=
  ⟨(get_todo_detail_soft emptyTree ["dp"] "f").1 rfl,
   (get_todo_detail_soft demoTree ["o"] "t1").2 "D" rfl⟩

/-- Witness for the soft todo-index read. -/
theorem get_todos_soft_witness :
    get_todos emptyTree ["dp"]
      (fun s => if s = "X" then some [⟨"i", "t", "s", "f"⟩] else none) =
      Outcome.ok [] ∧
    get_todos todosFileTree ["dp"]
      (fun s => if s = "X" then some [⟨"i", "t", "s", "f"⟩] else none) =
      Outcome.ok [⟨"i", "t", "s", "f"⟩] ∧
    get_todos todosFileTree ["dp"] (fun _ => none) = Outcome.ok [] :=
  ⟨(get_todos_soft emptyTree ["dp"] _).1 rfl,
   (get_todos_soft todosFileTree ["dp"] _).2.1 "X" [⟨"i", "t", "s", "f"⟩] rfl rfl,
   (get_todos_soft todosFileTree ["dp"] _).2.2 "X" rfl rfl⟩

/-- Witness for the config read's default fallback and parse success. -/
theorem get_app_config_defaults_witness :
    get_app_config emptyTree ["cfg"] (fun _ => none) "AD" = default_config "AD" ∧
    get_app_config configDirTree ["cfg"] (fun _ => none) "AD" = default_config "AD" ∧
    get_app_config configFileTree ["cfg"] (fun _ => none) "AD" = default_config "AD" ∧
    get_app_config configFileTree ["cfg"]
      (fun s => if s = "J" then some ⟨"dp", "en", "dark", "F", 1, "a", "b", true⟩
        else none) "AD" = ⟨"dp", "en", "dark", "F", 1, "a", "b", true⟩ ∧
    (default_config "AD").language = "zh-CN" ∧
    (default_config "AD").launch_at_login = false :=
  ⟨(get_app_config_defaults emptyTree ["cfg"] (fun _ => none) "AD").1 rfl,
   (get_app_config_defaults configDirTree ["cfg"] (fun _ => none) "AD").2.1 [] rfl,
   (get_app_config_defaults configFileTree ["cfg"] (fun _ => none) "AD").2.2.1 "J" rfl rfl,
   (get_app_config_defaults configFileTree ["cfg"] _ "AD").2.2.2.1 "J"
     ⟨"dp", "en", "dark", "F", 1, "a", "b", true⟩ rfl rfl,
   (get_app_config_defaults emptyTree ["cfg"] (fun _ => none) "AD").2.2.2.2.2.1,
   (get_app_config_defaults emptyTree ["cfg"] (fun _ => none) "AD").2.2.2.2.2.2.2.2.2.2.2⟩

/-- Witness for folder creation with its `assets/` subdirectory. -/
theorem create_todo_folder_assets_witness :
    (∃ cs, lookup (create_todo_folder emptyTree ["dp"] "u1").2 ["dp", "u1"] =
      some (Node.dir cs)) ∧
    lookup (create_todo_folder emptyTree ["dp"] "u1").2 ["dp", "u1", "assets"] =
      some (Node.dir []) := by
  have h := create_todo_folder_assets emptyTree ["dp"] "u1" "u1"
    (create_todo_folder emptyTree ["dp"] "u1").2 rfl
  exact ⟨h.2.1, h.2.2.2 rfl⟩

/-- Witness: writing a detail into a missing folder fails and changes
nothing, while the index and config writers create their directory. -/
theorem save_todo_detail_requires_folder_witness :
    save_todo_detail emptyTree ["dp"] "f" "X" = (Except.error "write failed", emptyTree) ∧
    (∃ fs2, save_todos emptyTree ["dp"] (some "[]") = (Except.ok (), fs2)) ∧
    (∃ fs2, save_app_config emptyTree ["dp"] (some "{}") = (Except.ok (), fs2)) := by
  have h := save_todo_detail_requires_folder emptyTree ["dp"] "f" "X"
    (fun cs hcs => by
      rw [show lookup emptyTree (["dp"] ++ ["f"]) = none from rfl] at hcs
      cases hcs)
  exact ⟨h.1, h.2.1 "[]" (Node.dir [("dp", Node.dir [])]) rfl rfl,
    h.2.2 "{}" (Node.dir [("dp", Node.dir [])]) rfl rfl⟩

end SimpleTodo
